import Mathlib

/-!
A shallow embedding of `app.py` (the archive-expanding tree flattener) and
proofs about it.

The program operates on one mutable directory tree:
* phase 1 repeatedly scans the tree for names ending in ".zip", extracts each
  archive into a fresh scratch directory created under the root, moves every
  extracted file to the root with collision renaming, removes the scratch
  directory and deletes the archive;
* phase 2 moves every remaining file of every subdirectory to the root with
  the same collision renaming;
* phase 3 removes empty directories bottom-up.

Filenames are modelled as lists of characters, directory listings as
association lists from names to entries, zip archives as files carrying the
listing that extraction produces, and `shutil.move` failures as an oracle
indexed by the number of move attempts made so far.
-/

namespace App

/-- A filename (a Python `str`), modelled as its character sequence. -/
abbrev Name := List Char

/-- Decimal digit characters produced when Python formats a counter. -/
def decChars : List Char := "0123456789".data

/-- Fuel-indexed decimal rendering of a natural number (low digit last),
mirroring how Python's f-string renders `counter`. -/
def natChars : Nat → Nat → List Char
  | 0, _ => []
  | fuel + 1, n =>
    if n < 10 then [Nat.digitChar n]
    else natChars fuel (n / 10) ++ [Nat.digitChar (n % 10)]

/-- Decimal rendering of a natural number, as Python's `str(n)`. -/
def natStr (n : Nat) : Name := natChars (n + 1) n

theorem natChars_ne_nil (fuel n : Nat) (h : n < fuel) : natChars fuel n ≠ [] := by
  cases fuel with
  | zero => omega
  | succ f =>
    unfold natChars
    split
    · simp
    · simp

theorem natStr_ne_nil (n : Nat) : natStr n ≠ [] :=
  natChars_ne_nil (n + 1) n (Nat.lt_succ_self n)

theorem natChars_mem_dec (fuel n : Nat) : ∀ c ∈ natChars fuel n, c ∈ decChars := by
  induction fuel generalizing n with
  | zero => intro c hc; simp [natChars] at hc
  | succ f ih =>
    intro c hc
    unfold natChars at hc
    split at hc
    · rename_i h
      simp at hc
      subst hc
      interval_cases n <;> decide
    · simp at hc
      rcases hc with hc | hc
      · exact ih (n / 10) c hc
      · subst hc
        have : n % 10 < 10 := Nat.mod_lt _ (by omega)
        interval_cases h : n % 10 <;> simp_all <;> decide

theorem natStr_mem_dec (n : Nat) : ∀ c ∈ natStr n, c ∈ decChars :=
  natChars_mem_dec (n + 1) n

theorem natChars_len_lower (L : Nat) :
    ∀ fuel n, n < fuel → 10 ^ L ≤ n → L + 1 ≤ (natChars fuel n).length := by
  induction L with
  | zero =>
    intro fuel n hfuel _
    have := natChars_ne_nil fuel n hfuel
    have : 0 < (natChars fuel n).length := List.length_pos.mpr this
    omega
  | succ L ih =>
    intro fuel n hfuel hpow
    have h10 : 10 ≤ n := le_trans (by have := Nat.one_le_two_pow (n := L) ; nlinarith [Nat.one_le_iff_ne_zero.mpr (pow_ne_zero L (by norm_num : (10:Nat) ≠ 0)), Nat.pow_le_pow_right (by norm_num : 1 ≤ 10) (Nat.le_add_left 1 L)]) hpow
    cases fuel with
    | zero => omega
    | succ f =>
      have hnot : ¬ n < 10 := by omega
      have hdivfuel : n / 10 < f := by
        have h1 : n / 10 < n := Nat.div_lt_self (by omega) (by omega)
        omega
      have hdivpow : 10 ^ L ≤ n / 10 := by
        rw [Nat.le_div_iff_mul_le (by norm_num : 0 < 10)]
        calc 10 ^ L * 10 = 10 ^ (L + 1) := by ring
        _ ≤ n := hpow
      have := ih f (n / 10) hdivfuel hdivpow
      unfold natChars
      rw [if_neg hnot]
      simp
      omega

theorem natStr_len_lower (L n : Nat) (h : 10 ^ L ≤ n) : L + 1 ≤ (natStr n).length :=
  natChars_len_lower L (n + 1) n (Nat.lt_succ_self n) h

/-- The characters of ".zip", the archive extension tested by
`file.endswith('.zip')`. -/
def zipExt : Name := ['.', 'z', 'i', 'p']

/-- Python's `name.endswith('.zip')`: the exact, case-sensitive suffix test. -/
def endsZip (s : Name) : Bool := zipExt.isSuffixOf s

/-- Index of the last '.' in a name, if any (`p.rfind('.')`). -/
def lastDot : Name → Option Nat
  | [] => none
  | c :: r =>
    match lastDot r with
    | some i => some (i + 1)
    | none => if c == '.' then some 0 else none

/-- Python's `os.path.splitext` restricted to a bare filename: split at the
last dot, except when every character before that dot is itself a dot
(leading dots of a dotfile do not start an extension). -/
def splitext (s : Name) : Name × Name :=
  match lastDot s with
  | none => (s, [])
  | some i =>
    if (s.take i).any (fun c => c != '.') then (s.take i, s.drop i) else (s, [])

theorem splitext_fst_append_snd (s : Name) : (splitext s).1 ++ (splitext s).2 = s := by
  unfold splitext
  rcases lastDot s with _ | i
  · simp
  · simp only
    split
    · simp
    · simp

/-- The candidate name `f"{base}_{counter}{ext}"` probed by the collision
loop. -/
def suffixed (b e : Name) (k : Nat) : Name := b ++ '_' :: (natStr k ++ e)

theorem endsZip_suffixed_short (b e : Name) (k : Nat) (h : e.length ≤ 3) :
    endsZip (suffixed b e k) = false := by
  have hnat : natStr k ≠ [] := natStr_ne_nil k
  obtain ⟨ds, d, hds⟩ : ∃ ds d, natStr k = ds ++ [d] := by
    rcases hn : natStr k with _ | ⟨c, cs⟩
    · exact absurd hn hnat
    · exact ⟨_, _, (List.dropLast_append_getLast (l := c :: cs) (by simp)).symm⟩
  have hd : d ∈ decChars := natStr_mem_dec k d (by rw [hds]; simp)
  have hdchars : ∀ c ∈ decChars, c ≠ 'p' ∧ c ≠ 'i' ∧ c ≠ 'z' ∧ c ≠ '.' := by decide
  obtain ⟨hp, hi, hz, hdot⟩ := hdchars d hd
  by_contra hcon
  rw [Bool.not_eq_false, endsZip, List.isSuffixOf_iff_suffix] at hcon
  obtain ⟨t, ht⟩ := hcon
  rcases e with _ | ⟨a1, _ | ⟨a2, _ | ⟨a3, _ | ⟨a4, e'⟩⟩⟩⟩
  · have hs : suffixed b [] k = (b ++ '_' :: ds) ++ [d] := by
      simp [suffixed, hds]
    rw [hs] at ht
    have ht2 : (t ++ ['.', 'z', 'i']) ++ ['p'] = (b ++ '_' :: ds) ++ [d] := by
      rw [← ht]; simp [zipExt]
    have h2 := (List.append_inj' ht2 (by simp)).2
    simp at h2
    exact hp h2.symm
  · have hs : suffixed b [a1] k = (b ++ '_' :: ds) ++ [d, a1] := by
      simp [suffixed, hds]
    rw [hs] at ht
    have ht2 : (t ++ ['.', 'z']) ++ ['i', 'p'] = (b ++ '_' :: ds) ++ [d, a1] := by
      rw [← ht]; simp [zipExt]
    have h2 := (List.append_inj' ht2 (by simp)).2
    simp at h2
    exact hi h2.1.symm
  · have hs : suffixed b [a1, a2] k = (b ++ '_' :: ds) ++ [d, a1, a2] := by
      simp [suffixed, hds]
    rw [hs] at ht
    have ht2 : (t ++ ['.']) ++ ['z', 'i', 'p'] = (b ++ '_' :: ds) ++ [d, a1, a2] := by
      rw [← ht]; simp [zipExt]
    have h2 := (List.append_inj' ht2 (by simp)).2
    simp at h2
    exact hz h2.1.symm
  · have hs : suffixed b [a1, a2, a3] k = (b ++ '_' :: ds) ++ [d, a1, a2, a3] := by
      simp [suffixed, hds]
    rw [hs] at ht
    have ht2 : t ++ ['.', 'z', 'i', 'p'] = (b ++ '_' :: ds) ++ [d, a1, a2, a3] := by
      rw [← ht]; simp [zipExt]
    have h2 := (List.append_inj' ht2 (by simp)).2
    simp at h2
    exact hdot h2.1.symm
  · simp at h

theorem endsZip_append_right (x e : Name) (h : 4 ≤ e.length) :
    endsZip (x ++ e) = endsZip e := by
  have hiff : zipExt <:+ x ++ e ↔ zipExt <:+ e := by
    constructor
    · rintro ⟨t, ht⟩
      refine ⟨t.drop x.length, ?_⟩
      have hlen : x.length ≤ t.length := by
        have hc := congrArg List.length ht
        simp [zipExt] at hc
        omega
      have ht2 : t.take x.length ++ (t.drop x.length ++ zipExt) = x ++ e := by
        rw [← List.append_assoc, List.take_append_drop]; exact ht
      exact (List.append_inj ht2 (by simp [Nat.min_eq_left hlen])).2
    · exact fun hs => hs.trans (List.suffix_append x e)
  have h1 : endsZip (x ++ e) = true ↔ endsZip e = true := by
    rw [endsZip, endsZip, List.isSuffixOf_iff_suffix, List.isSuffixOf_iff_suffix]
    exact hiff
  cases hA : endsZip (x ++ e) <;> cases hB : endsZip e <;> simp_all

theorem endsZip_suffixed (b e : Name) (k : Nat) (h : endsZip (suffixed b e k) = true) :
    endsZip (b ++ e) = true := by
  rcases Nat.lt_or_ge e.length 4 with he | he
  · rw [endsZip_suffixed_short b e k (by omega)] at h
    cases h
  · have hs : suffixed b e k = (b ++ '_' :: natStr k) ++ e := by
      simp [suffixed]
    rw [hs, endsZip_append_right _ _ he] at h
    rw [endsZip_append_right b e he]
    exact h

/-- Largest length among a set of names (used only to bound the collision
probe's search). -/
def maxLen (ns : List Name) : Nat := ns.foldr (fun n a => max n.length a) 0

theorem length_le_maxLen {ns : List Name} {n : Name} (h : n ∈ ns) :
    n.length ≤ maxLen ns := by
  induction ns with
  | nil => cases h
  | cons m r ih =>
    rcases List.mem_cons.mp h with h1 | h1
    · subst h1
      simp [maxLen]
    · have := ih h1
      simp [maxLen] at this ⊢
      omega

theorem suffixed_long_not_mem (ns : List Name) (b e : Name) (k : Nat)
    (h : 10 ^ maxLen ns ≤ k) : suffixed b e k ∉ ns := by
  intro hmem
  have h1 : (suffixed b e k).length ≤ maxLen ns := length_le_maxLen hmem
  have h2 : (natStr k).length ≤ (suffixed b e k).length := by
    simp [suffixed]
    omega
  have h3 := natStr_len_lower (maxLen ns) k h
  omega

/-- The collision probe: the `while os.path.exists(...): counter += 1` loop.
Returns the first index `k` from its start value whose candidate name is not
taken.  Termination: a candidate longer than every existing name is free. -/
def probe (ns : List Name) (b e : Name) (k : Nat) : Nat :=
  if h : suffixed b e k ∈ ns then probe ns b e (k + 1) else k
termination_by 10 ^ maxLen ns - k
decreasing_by
  have h3 : k < 10 ^ maxLen ns := by
    by_contra h4
    push_neg at h4
    exact suffixed_long_not_mem ns b e k h4 h
  omega

theorem probe_not_mem (ns : List Name) (b e : Name) (k : Nat) :
    suffixed b e (probe ns b e k) ∉ ns := by
  induction k using probe.induct ns b e with
  | case1 x hin ih =>
    rw [probe, dif_pos hin]
    exact ih
  | case2 x hout =>
    rw [probe, dif_neg hout]
    exact hout

theorem probe_le (ns : List Name) (b e : Name) (k : Nat) : k ≤ probe ns b e k := by
  induction k using probe.induct ns b e with
  | case1 x hin ih =>
    rw [probe, dif_pos hin]
    omega
  | case2 x hout =>
    rw [probe, dif_neg hout]

theorem probe_min (ns : List Name) (b e : Name) (k : Nat) :
    ∀ j, k ≤ j → j < probe ns b e k → suffixed b e j ∈ ns := by
  induction k using probe.induct ns b e with
  | case1 x hin ih =>
    intro j hkj hjp
    rw [probe, dif_pos hin] at hjp
    rcases Nat.eq_or_lt_of_le hkj with h1 | h1
    · subst h1; exact hin
    · exact ih j h1 hjp
  | case2 x hout =>
    intro j hkj hjp
    rw [probe, dif_neg hout] at hjp
    omega

/-- The shared collision-resolution policy of phase 1 and phase 2: if the
candidate root-level name is taken, probe `base_1.ext`, `base_2.ext`, … and
use the first free candidate; otherwise keep the name. -/
def resolveName (ns : List Name) (n : Name) : Name :=
  if n ∈ ns then
    suffixed (splitext n).1 (splitext n).2 (probe ns (splitext n).1 (splitext n).2 1)
  else n

theorem resolveName_not_mem (ns : List Name) (n : Name) : resolveName ns n ∉ ns := by
  unfold resolveName
  split
  · exact probe_not_mem ns _ _ 1
  · assumption

theorem resolveName_not_endsZip (ns : List Name) (n : Name) (h : endsZip n = false) :
    endsZip (resolveName ns n) = false := by
  unfold resolveName
  split
  · by_contra hcon
    rw [Bool.not_eq_false] at hcon
    have h2 := endsZip_suffixed _ _ _ hcon
    rw [splitext_fst_append_snd] at h2
    rw [h] at h2
    cases h2
  · exact h

/-- The name stem used for scratch directories (`tempfile.mkdtemp` creates
`tmp…` names under the root). -/
def tmpBase : Name := ['t', 'm', 'p']

/-- A fresh scratch-directory name under the root: `tempfile.mkdtemp(dir=root)`
guarantees a name unused in the root listing; we model its choice by the same
probing scheme. -/
def freshTmp (ns : List Name) : Name := suffixed tmpBase [] (probe ns tmpBase [] 1)

theorem freshTmp_not_mem (ns : List Name) : freshTmp ns ∉ ns :=
  probe_not_mem ns tmpBase [] 1

/-- An entry of a directory: a plain file with opaque contents, a file that
parses as a zip archive (extraction yields the recorded listing), or a
subdirectory.  A file whose bytes do not form a valid archive is `raw`
regardless of its name; a corrupt `.zip` is a `raw` entry with a `.zip`
name. -/
inductive Entry where
  | raw (data : Nat)
  | zip (entries : List (Name × Entry))
  | dir (children : List (Name × Entry))

instance : Inhabited Entry := ⟨Entry.raw 0⟩

/-- A directory listing: bindings of names to entries, in listing order. -/
abbrev Listing := List (Name × Entry)

/-- A path of directory names relative to the root. -/
abbrev Path := List Name

/-- The names present in a listing (`os.path.exists` at the root consults
these). -/
def names (l : Listing) : List Name := l.map Prod.fst

/-- Whether an entry is a file (zip files are files; directories are not). -/
def isFile : Entry → Bool
  | Entry.raw _ => true
  | Entry.zip _ => true
  | Entry.dir _ => false

/-- First binding of a name in a listing. -/
def lookupN : Listing → Name → Option Entry
  | [], _ => none
  | (m, e) :: r, n => if m = n then some e else lookupN r n

/-- Remove the first binding of a name from a listing. -/
def eraseN : Listing → Name → Listing
  | [], _ => []
  | (m, e) :: r, n => if m = n then r else (m, e) :: eraseN r n

/-- Apply a function to the entry of the first binding of a name. -/
def modBind : Listing → Name → (Entry → Entry) → Listing
  | [], _, _ => []
  | (m, e) :: r, n, f => if m = n then (m, f e) :: r else (m, e) :: modBind r n f

/-- Look up the entry called `n` inside the directory at `p`. -/
def lookupAt : Listing → Path → Name → Option Entry
  | l, [], n => lookupN l n
  | l, d :: ps, n =>
    match lookupN l d with
    | some (Entry.dir cs) => lookupAt cs ps n
    | _ => none

/-- Rewrite the listing of the directory at `p` with `f` (no-op when the path
does not lead through directories). -/
def modAt : Listing → Path → (Listing → Listing) → Listing
  | l, [], f => f l
  | l, d :: ps, f =>
    modBind l d (fun e =>
      match e with
      | Entry.dir cs => Entry.dir (modAt cs ps f)
      | _ => e)

/-- Delete the file called `n` from the directory at `p` (`os.remove`, and the
source-removal half of `shutil.move`). -/
def removeFileAt (l : Listing) (p : Path) (n : Name) : Listing :=
  modAt l p (fun cs => eraseN cs n)

/-- One step of phase 3: `if not os.listdir(dir): os.rmdir(dir)` for the
directory called `n` inside the directory at `p`. -/
def pruneOne : Listing → Path → Name → Listing
  | l, [], n =>
    match lookupN l n with
    | some (Entry.dir cs) => if cs.isEmpty then eraseN l n else l
    | _ => l
  | l, d :: ps, n =>
    modBind l d (fun e =>
      match e with
      | Entry.dir cs => Entry.dir (pruneOne cs ps n)
      | _ => e)

/-- The files of one directory as `os.walk` yields them at its visit. -/
def filesPart (cur : Path) (l : Listing) : List (Path × Name × Entry) :=
  l.filterMap (fun q => if isFile q.2 then some (cur, q.1, q.2) else none)

/-- The files contributed by the subdirectories of a listing, in `os.walk`
top-down order (each subdirectory's own files first, then its
subdirectories'). -/
def walkDirs : Path → Listing → List (Path × Name × Entry)
  | _, [] => []
  | cur, (n, Entry.dir cs) :: r =>
    (filesPart (cur ++ [n]) cs ++ walkDirs (cur ++ [n]) cs) ++ walkDirs cur r
  | cur, _ :: r => walkDirs cur r

/-- All files below a directory in `os.walk` top-down order. -/
def walkDir (cur : Path) (l : Listing) : List (Path × Name × Entry) :=
  filesPart cur l ++ walkDirs cur l

/-- The zip scan of phase 1: every file anywhere in the tree whose name ends
in ".zip", in walk order. -/
def findZips (l : Listing) : List (Path × Name) :=
  (walkDir [] l).filterMap (fun i => if endsZip i.2.1 then some (i.1, i.2.1) else none)

/-- The subdirectory names of one directory, paired with its path (the
`dirs` list that phase 3 iterates at one visit). -/
def dirNamesPart (cur : Path) (l : Listing) : List (Path × Name) :=
  l.filterMap (fun q =>
    match q.2 with
    | Entry.dir _ => some (cur, q.1)
    | _ => none)

/-- Directories contributed below the subdirectories of a listing in
`os.walk` bottom-up order (each subdirectory's own walk first, then the
subdirectory itself at its parent's visit). -/
def buDirsAux : Path → Listing → List (Path × Name)
  | _, [] => []
  | cur, (n, Entry.dir cs) :: r =>
    (buDirsAux (cur ++ [n]) cs ++ dirNamesPart (cur ++ [n]) cs) ++ buDirsAux cur r
  | cur, _ :: r => buDirsAux cur r

/-- All directories strictly below a directory, bottom-up (children before
parents), as phase 3 visits them. -/
def buDirs (cur : Path) (l : Listing) : List (Path × Name) :=
  buDirsAux cur l ++ dirNamesPart cur l

mutual

/-- Well-formedness of an entry: all listings reachable from it (directory
children and zip contents) bind each name at most once, as a real filesystem
and a well-formed archive do. -/
def wfE : Entry → Bool
  | Entry.raw _ => true
  | Entry.zip es => wfL es
  | Entry.dir cs => wfL cs

/-- Well-formedness of a listing: names are distinct and entries well-formed. -/
def wfL : Listing → Bool
  | [] => true
  | (n, e) :: r => decide (n ∉ names r) && wfE e && wfL r

end

mutual

/-- Whether an entry is a directory containing no files at any depth. -/
def fileFreeE : Entry → Bool
  | Entry.dir cs => fileFreeL cs
  | _ => false

/-- Whether a listing contains only file-free directories. -/
def fileFreeL : Listing → Bool
  | [] => true
  | (_, e) :: r => fileFreeE e && fileFreeL r

end

mutual

/-- All raw file contents reachable from an entry, both on disk (through
directories) and inside archives (through zip entries). -/
def datasE : Entry → List Nat
  | Entry.raw d => [d]
  | Entry.zip es => datasL es
  | Entry.dir cs => datasL cs

/-- All raw file contents reachable from a listing. -/
def datasL : Listing → List Nat
  | [] => []
  | (_, e) :: r => datasE e ++ datasL r

end

/-- The two classes of failure `shutil.move` can raise: `shutil.Error`, which
the per-move `except shutil.Error` handlers catch, and any other `OSError`,
which they do not. -/
inductive Exc where
  | shErr
  | osErr
deriving DecidableEq

/-- A failure oracle: what the `i`-th `shutil.move` call of the run does
(`none` = the move succeeds). -/
abbrev Oracle := Nat → Option Exc

/-- The diagnostic events the program reports (info lines are omitted). -/
inductive Ev where
  | errNotDir
  | warnBadZip (p : Path) (n : Name)
  | warnRenamed (orig new : Name)
  | errMove (n : Name)
  | errZip (p : Path) (n : Name)
deriving DecidableEq

/-- Program state: the root listing, the log (most recent first), and the
number of `shutil.move` calls made so far. -/
structure St where
  root : Listing
  log : List Ev
  mv : Nat

/-- The move loop shared by phase 1 (lines 53–72) and phase 2 (lines 96–113):
for each walked file, resolve the target name against the current root,
warn on a rename, then attempt the move; `shutil.Error` is caught and
logged, any other `OSError` escapes the loop. -/
def moveLoop (σ : Oracle) : List (Path × Name × Entry) → St → Except St St
  | [], st => Except.ok st
  | (p, n, e) :: rest, st =>
    let tgt := resolveName (names st.root) n
    let log1 := if n ∈ names st.root then Ev.warnRenamed n tgt :: st.log else st.log
    match σ st.mv with
    | none =>
      moveLoop σ rest
        { root := removeFileAt st.root p n ++ [(tgt, e)], log := log1, mv := st.mv + 1 }
    | some Exc.shErr =>
      moveLoop σ rest { root := st.root, log := Ev.errMove n :: log1, mv := st.mv + 1 }
    | some Exc.osErr =>
      Except.error { root := st.root, log := log1, mv := st.mv + 1 }

/-- Processing of one scanned archive path (lines 39–88): create a scratch
directory, open the archive, extract, move every extracted file to the root,
remove the scratch directory, delete the archive.  `BadZipFile` is warned
and skipped (leaving both the file and the just-created scratch directory);
any other failure is logged and the scratch directory removed, keeping the
archive. -/
def processZip (σ : Oracle) (st : St) (pn : Path × Name) : St :=
  let tmp := freshTmp (names st.root)
  match lookupAt st.root pn.1 pn.2 with
  | some (Entry.zip entries) =>
    let root1 := st.root ++ [(tmp, Entry.dir entries)]
    match moveLoop σ (walkDir [tmp] entries) { st with root := root1 } with
    | Except.ok st2 =>
      { root := removeFileAt (eraseN st2.root tmp) pn.1 pn.2, log := st2.log, mv := st2.mv }
    | Except.error st2 =>
      { root := eraseN st2.root tmp, log := Ev.errZip pn.1 pn.2 :: st2.log, mv := st2.mv }
  | some (Entry.raw _) =>
    { root := st.root ++ [(tmp, Entry.dir [])],
      log := Ev.warnBadZip pn.1 pn.2 :: st.log, mv := st.mv }
  | _ =>
    { root := eraseN (st.root ++ [(tmp, Entry.dir [])]) tmp,
      log := Ev.errZip pn.1 pn.2 :: st.log, mv := st.mv }

/-- One pass of phase 1's outer loop over the scanned archive list. -/
def runPass (σ : Oracle) (st : St) (zips : List (Path × Name)) : St :=
  zips.foldl (processZip σ) st

/-- Phase 1's outer loop (lines 26–88): scan the whole tree for ".zip" files;
if any were found, process them all and scan again; stop only when a scan
finds none.  `fuel` bounds the number of scans we unfold; `none` means the
loop was still running when the fuel ran out. -/
def phase1 (σ : Oracle) : Nat → St → Option St
  | 0, _ => none
  | fuel + 1, st =>
    let zs := findZips st.root
    if zs.isEmpty then some st
    else phase1 σ fuel (runPass σ st zs)

/-- Phase 2 (lines 91–113): move every file of every subdirectory to the
root.  Identical move loop to phase 1, but the surrounding handler catches
only `shutil.Error`, so an `osErr` propagates out of the whole function. -/
def phase2 (σ : Oracle) (st : St) : Except St St :=
  moveLoop σ (walkDirs [] st.root) st

/-- Phase 3 (lines 115–125): walk bottom-up and remove every directory that
is empty when visited. -/
def phase3 (st : St) : St :=
  { st with root := (buDirs [] st.root).foldl (fun l pn => pruneOne l pn.1 pn.2) st.root }

/-- Result of a run: normal completion, an uncaught exception (with the state
at that point), or the phase-1 loop still running when the fuel ran out. -/
inductive RunRes where
  | done (s : St)
  | exn (s : St)
  | hang

/-- The whole program `extract_and_flatten_folder` (lines 10–127).  `isdir`
models the `os.path.isdir(source_folder)` precondition check. -/
def extract_and_flatten_folder (σ : Oracle) (fuel : Nat) (isdir : Bool) (st : St) : RunRes :=
  if isdir = false then RunRes.done { st with log := Ev.errNotDir :: st.log }
  else
    match phase1 σ fuel st with
    | none => RunRes.hang
    | some st1 =>
      match phase2 σ st1 with
      | Except.error st2 => RunRes.exn st2
      | Except.ok st2 => RunRes.done (phase3 st2)

/-- The oracle of a run in which every `shutil.move` succeeds. -/
def noFail : Oracle := fun _ => none

theorem probe_eq_of_not_mem {ns : List Name} {b e : Name} {k : Nat}
    (h : suffixed b e k ∉ ns) : probe ns b e k = k := by
  rw [probe, dif_neg h]

theorem freshTmp_eval {ns : List Name} (h : ['t', 'm', 'p', '_', '1'] ∉ ns) :
    freshTmp ns = ['t', 'm', 'p', '_', '1'] := by
  rw [freshTmp, probe_eq_of_not_mem (h := h)]
  rfl

theorem resolveName_free {ns : List Name} {n : Name} (h : n ∉ ns) :
    resolveName ns n = n := by
  rw [resolveName, if_neg h]

theorem lookupN_eq_none_iff {l : Listing} {n : Name} :
    lookupN l n = none ↔ n ∉ names l := by
  induction l with
  | nil => simp [lookupN, names]
  | cons q r ih =>
    obtain ⟨m, e⟩ := q
    by_cases h : m = n
    · subst h
      simp [lookupN, names]
    · simp [lookupN, names, h, ih, Ne.symm h]

theorem lookupN_isSome_of_mem {l : Listing} {n : Name} (h : n ∈ names l) :
    ∃ e, lookupN l n = some e := by
  rcases he : lookupN l n with _ | e
  · exact absurd (lookupN_eq_none_iff.mp he) (by simp [h])
  · exact ⟨e, rfl⟩

theorem mem_names_of_lookupN {l : Listing} {n : Name} {e : Entry}
    (h : lookupN l n = some e) : n ∈ names l := by
  by_contra hcon
  rw [← lookupN_eq_none_iff] at hcon
  rw [h] at hcon
  cases hcon

theorem names_append (l l' : Listing) : names (l ++ l') = names l ++ names l' := by
  simp [names]

theorem lookupN_append (l l' : Listing) (n : Name) :
    lookupN (l ++ l') n = (lookupN l n).or (lookupN l' n) := by
  induction l with
  | nil => simp [lookupN]
  | cons q r ih =>
    obtain ⟨m, e⟩ := q
    by_cases h : m = n
    · subst h
      simp [lookupN]
    · simp [lookupN, h, ih]

theorem lookupN_eraseN_ne {l : Listing} {n m : Name} (h : m ≠ n) :
    lookupN (eraseN l n) m = lookupN l m := by
  induction l with
  | nil => simp [eraseN]
  | cons q r ih =>
    obtain ⟨a, e⟩ := q
    by_cases ha : a = n
    · subst ha
      simp [eraseN, lookupN, Ne.symm h]
    · by_cases hm : a = m
      · subst hm
        simp [eraseN, lookupN, ha]
      · simp [eraseN, lookupN, ha, hm, ih]

theorem names_eraseN_subset (l : Listing) (n : Name) :
    names (eraseN l n) ⊆ names l := by
  induction l with
  | nil => simp [eraseN]
  | cons q r ih =>
    obtain ⟨a, e⟩ := q
    by_cases ha : a = n
    · subst ha
      simp only [eraseN, if_pos rfl]
      intro x hx
      rw [names, List.map_cons, List.mem_cons]
      exact Or.inr hx
    · simp only [eraseN, if_neg ha]
      intro x hx
      rw [names, List.map_cons, List.mem_cons] at hx ⊢
      rcases hx with hx | hx
      · exact Or.inl hx
      · exact Or.inr (ih hx)

theorem lookupN_eraseN_self {l : Listing} {n : Name}
    (h : (names l).Nodup) : lookupN (eraseN l n) n = none := by
  induction l with
  | nil => simp [eraseN, lookupN]
  | cons q r ih =>
    obtain ⟨a, e⟩ := q
    rw [names] at h
    simp only [List.map_cons, List.nodup_cons] at h
    by_cases ha : a = n
    · subst ha
      simp [eraseN]
      exact lookupN_eq_none_iff.mpr h.1
    · simp [eraseN, lookupN, ha]
      exact ih h.2

theorem eraseN_append_self {l : Listing} {n : Name} {e : Entry}
    (h : n ∉ names l) : eraseN (l ++ [(n, e)]) n = l := by
  induction l with
  | nil => simp [eraseN]
  | cons q r ih =>
    obtain ⟨a, g⟩ := q
    have ha : a ≠ n := by
      intro hc
      exact h (by simp [names, hc])
    have hr : n ∉ names r := by
      intro hc
      refine h ?_
      simp [names] at hc ⊢
      exact Or.inr hc
    simp only [List.cons_append, eraseN, if_neg ha]
    exact congrArg (fun t => (a, g) :: t) (ih hr)

theorem names_modBind (l : Listing) (n : Name) (f : Entry → Entry) :
    names (modBind l n f) = names l := by
  induction l with
  | nil => simp [modBind]
  | cons q r ih =>
    obtain ⟨a, e⟩ := q
    by_cases ha : a = n
    · simp [modBind, ha, names]
    · simp [modBind, ha, names]
      simpa [names] using ih

theorem lookupN_modBind_self (l : Listing) (n : Name) (f : Entry → Entry) :
    lookupN (modBind l n f) n = (lookupN l n).map f := by
  induction l with
  | nil => simp [modBind, lookupN]
  | cons q r ih =>
    obtain ⟨a, e⟩ := q
    by_cases ha : a = n
    · subst ha
      simp [modBind, lookupN]
    · simp [modBind, lookupN, ha, ih]

theorem lookupN_modBind_ne (l : Listing) {n m : Name} (f : Entry → Entry) (h : m ≠ n) :
    lookupN (modBind l n f) m = lookupN l m := by
  induction l with
  | nil => simp [modBind]
  | cons q r ih =>
    obtain ⟨a, e⟩ := q
    by_cases ha : a = n
    · subst ha
      simp [modBind, lookupN, Ne.symm h]
    · by_cases hm : a = m
      · subst hm
        simp [modBind, lookupN, ha]
      · simp [modBind, lookupN, ha, hm, ih]

theorem names_modAt (l : Listing) (d : Name) (ps : Path) (f : Listing → Listing) :
    names (modAt l (d :: ps) f) = names l := by
  rw [modAt]
  exact names_modBind l d _

theorem wfL_cons_iff {n : Name} {e : Entry} {r : Listing} :
    wfL ((n, e) :: r) = true ↔ n ∉ names r ∧ wfE e = true ∧ wfL r = true := by
  rw [wfL]
  simp [Bool.and_eq_true, decide_eq_true_iff, and_assoc]

theorem wfL_nodup {l : Listing} (h : wfL l = true) : (names l).Nodup := by
  induction l with
  | nil => simp [names]
  | cons q r ih =>
    obtain ⟨n, e⟩ := q
    rw [wfL_cons_iff] at h
    rw [names, List.map_cons, List.nodup_cons]
    exact ⟨h.1, ih h.2.2⟩

theorem wfE_of_lookupN {l : Listing} {n : Name} {e : Entry}
    (hw : wfL l = true) (h : lookupN l n = some e) : wfE e = true := by
  induction l with
  | nil => simp [lookupN] at h
  | cons q r ih =>
    obtain ⟨a, g⟩ := q
    rw [wfL_cons_iff] at hw
    rw [lookupN] at h
    by_cases ha : a = n
    · rw [if_pos ha] at h
      cases h
      exact hw.2.1
    · rw [if_neg ha] at h
      exact ih hw.2.2 h

theorem wfE_of_lookupAt {p : Path} :
    ∀ {l : Listing} {n : Name} {e : Entry}, wfL l = true →
      lookupAt l p n = some e → wfE e = true := by
  induction p with
  | nil =>
    intro l n e hw h
    exact wfE_of_lookupN hw h
  | cons d ps ih =>
    intro l n e hw h
    rw [lookupAt] at h
    rcases hd : lookupN l d with _ | g
    · rw [hd] at h
      cases h
    · rw [hd] at h
      cases g with
      | raw x => cases h
      | zip es => cases h
      | dir cs =>
        have hcs : wfE (Entry.dir cs) = true := wfE_of_lookupN hw hd
        rw [wfE] at hcs
        exact ih hcs h

theorem wfL_eraseN {l : Listing} (n : Name) (h : wfL l = true) :
    wfL (eraseN l n) = true := by
  induction l with
  | nil => simp [eraseN, wfL]
  | cons q r ih =>
    obtain ⟨a, e⟩ := q
    rw [wfL_cons_iff] at h
    by_cases ha : a = n
    · simp only [eraseN, if_pos ha]
      exact h.2.2
    · simp only [eraseN, if_neg ha]
      rw [wfL_cons_iff]
      refine ⟨fun hc => h.1 (names_eraseN_subset r n hc), h.2.1, ih h.2.2⟩

theorem wfL_append_single {l : Listing} {n : Name} {e : Entry}
    (hw : wfL l = true) (hn : n ∉ names l) (he : wfE e = true) :
    wfL (l ++ [(n, e)]) = true := by
  induction l with
  | nil => simp [wfL, names, he]
  | cons q r ih =>
    obtain ⟨a, g⟩ := q
    rw [wfL_cons_iff] at hw
    have hn' : n ∉ names r := by
      intro hc
      refine hn ?_
      rw [names, List.map_cons, List.mem_cons]
      exact Or.inr hc
    have han : a ≠ n := by
      intro hc
      refine hn ?_
      rw [names, List.map_cons, List.mem_cons]
      exact Or.inl hc.symm
    rw [List.cons_append, wfL_cons_iff]
    refine ⟨?_, hw.2.1, ih hw.2.2 hn'⟩
    rw [names_append]
    intro hc
    rcases List.mem_append.mp hc with hc | hc
    · exact hw.1 hc
    · simp [names] at hc
      exact han hc

theorem wfL_modBind {l : Listing} {n : Name} {f : Entry → Entry}
    (hw : wfL l = true) (hf : ∀ e, wfE e = true → wfE (f e) = true) :
    wfL (modBind l n f) = true := by
  induction l with
  | nil => simp [modBind, wfL]
  | cons q r ih =>
    obtain ⟨a, e⟩ := q
    rw [wfL_cons_iff] at hw
    by_cases ha : a = n
    · simp only [modBind, if_pos ha]
      rw [wfL_cons_iff]
      exact ⟨hw.1, hf e hw.2.1, hw.2.2⟩
    · simp only [modBind, if_neg ha]
      rw [wfL_cons_iff]
      refine ⟨?_, hw.2.1, ih hw.2.2⟩
      rw [names_modBind]
      exact hw.1

theorem wfL_modAt {p : Path} {f : Listing → Listing}
    (hf : ∀ cs, wfL cs = true → wfL (f cs) = true) :
    ∀ {l : Listing}, wfL l = true → wfL (modAt l p f) = true := by
  induction p with
  | nil =>
    intro l hw
    exact hf l hw
  | cons d ps ih =>
    intro l hw
    rw [modAt]
    refine wfL_modBind hw ?_
    intro e he
    cases e with
    | raw x => exact he
    | zip es => exact he
    | dir cs =>
      rw [wfE] at he ⊢
      exact ih he

theorem wfL_removeFileAt {l : Listing} (p : Path) (n : Name) (hw : wfL l = true) :
    wfL (removeFileAt l p n) = true :=
  wfL_modAt (fun cs hcs => wfL_eraseN n hcs) hw

theorem lookupN_single_self (t : Name) (e : Entry) : lookupN [(t, e)] t = some e := by
  simp [lookupN]

theorem lookupN_single_ne {t d : Name} (e : Entry) (h : t ≠ d) :
    lookupN [(t, e)] d = none := by
  simp [lookupN, h]

theorem lookupAt_append_file {l : Listing} {t : Name} {e : Entry}
    (hfe : isFile e = true) (ht : t ∉ names l) (d : Name) (ps : Path) (m : Name) :
    lookupAt (l ++ [(t, e)]) (d :: ps) m = lookupAt l (d :: ps) m := by
  rw [lookupAt, lookupAt, lookupN_append]
  rcases hd : lookupN l d with _ | g
  · rw [Option.none_or]
    by_cases hdt : t = d
    · subst hdt
      rw [lookupN_single_self]
      cases e with
      | raw x => rfl
      | zip es => rfl
      | dir cs => cases hfe
    · rw [lookupN_single_ne e hdt]
  · rfl

theorem lookupAt_append_dir_self {l : Listing} {t : Name} {cs : Listing}
    (ht : t ∉ names l) (ps : Path) (m : Name) :
    lookupAt (l ++ [(t, Entry.dir cs)]) (t :: ps) m = lookupAt cs ps m := by
  rw [lookupAt, lookupN_append, lookupN_eq_none_iff.mpr ht, Option.none_or,
    lookupN_single_self]

theorem lookupAt_append_entry_ne {l : Listing} {t : Name} {e : Entry}
    {d : Name} (hdt : d ≠ t) (ps : Path) (m : Name) :
    lookupAt (l ++ [(t, e)]) (d :: ps) m = lookupAt l (d :: ps) m := by
  rw [lookupAt, lookupAt, lookupN_append]
  rcases hd : lookupN l d with _ | g
  · rw [Option.none_or, lookupN_single_ne e (fun hc => hdt hc.symm)]
  · rfl

theorem lookupN_append_single_self {l : Listing} {t : Name} {e : Entry}
    (ht : t ∉ names l) : lookupN (l ++ [(t, e)]) t = some e := by
  rw [lookupN_append, lookupN_eq_none_iff.mpr ht, Option.none_or, lookupN_single_self]

theorem mem_of_lookupN {l : Listing} {n : Name} {e : Entry}
    (h : lookupN l n = some e) : (n, e) ∈ l := by
  induction l with
  | nil => simp [lookupN] at h
  | cons q r ih =>
    obtain ⟨a, g⟩ := q
    rw [lookupN] at h
    by_cases ha : a = n
    · rw [if_pos ha] at h
      cases h
      subst ha
      exact List.mem_cons_self _ _
    · rw [if_neg ha] at h
      exact List.mem_cons_of_mem _ (ih h)

theorem lookupN_of_mem_nodup {l : Listing} {n : Name} {e : Entry}
    (hw : (names l).Nodup) (h : (n, e) ∈ l) : lookupN l n = some e := by
  induction l with
  | nil => cases h
  | cons q r ih =>
    obtain ⟨a, g⟩ := q
    rw [names, List.map_cons, List.nodup_cons] at hw
    rcases List.mem_cons.mp h with h1 | h1
    · cases h1
      rw [lookupN, if_pos rfl]
    · have hn : n ∈ names r := by
        rw [names, List.mem_map]
        exact ⟨(n, e), h1, rfl⟩
      have ha : a ≠ n := fun hc => hw.1 (hc ▸ hn)
      rw [lookupN, if_neg ha]
      exact ih hw.2 h1

theorem mem_filesPart_iff {cur : Path} {l : Listing} {x : Path × Name × Entry} :
    x ∈ filesPart cur l ↔ x.1 = cur ∧ (x.2.1, x.2.2) ∈ l ∧ isFile x.2.2 = true := by
  rw [filesPart, List.mem_filterMap]
  constructor
  · rintro ⟨⟨m, g⟩, hmem, hx⟩
    by_cases hf : isFile g = true
    · rw [if_pos hf] at hx
      cases hx
      exact ⟨rfl, hmem, hf⟩
    · rw [if_neg hf] at hx
      cases hx
  · rintro ⟨h1, h2, h3⟩
    obtain ⟨p, m, g⟩ := x
    refine ⟨(m, g), h2, ?_⟩
    simp only at h1 h3
    rw [if_pos h3, h1]

theorem lookupAt_cons_elim {l : Listing} {d : Name} {ps : Path} {m : Name} {g : Entry}
    (h : lookupAt l (d :: ps) m = some g) :
    ∃ cs, lookupN l d = some (Entry.dir cs) ∧ lookupAt cs ps m = some g := by
  rw [lookupAt] at h
  rcases hd : lookupN l d with _ | e
  · rw [hd] at h
    cases h
  · rw [hd] at h
    cases e with
    | raw x => cases h
    | zip es => cases h
    | dir cs => exact ⟨cs, rfl, h⟩

theorem walkDirs_complete {m : Name} {g : Entry} :
    ∀ (cur : Path) (l : Listing) {p : Path}, p ≠ [] →
      lookupAt l p m = some g → isFile g = true → (cur ++ p, m, g) ∈ walkDirs cur l := by
  intro cur l
  induction cur, l using walkDirs.induct with
  | case1 cur =>
    intro p hp h hf
    rcases p with _ | ⟨d, ps⟩
    · exact absurd rfl hp
    · obtain ⟨cs, hd, _⟩ := lookupAt_cons_elim h
      rw [lookupN] at hd
      cases hd
  | case2 cur n cs r ih1 ih2 =>
    intro p hp h hf
    rcases p with _ | ⟨d, ps⟩
    · exact absurd rfl hp
    obtain ⟨cs', hd, hsub⟩ := lookupAt_cons_elim h
    simp only [walkDirs, List.mem_append]
    by_cases hnd : n = d
    · subst hnd
      rw [lookupN, if_pos rfl] at hd
      cases hd
      rcases ps with _ | ⟨d', ps'⟩
      · left
        left
        rw [mem_filesPart_iff]
        rw [lookupAt] at hsub
        exact ⟨by simp, mem_of_lookupN hsub, hf⟩
      · left
        right
        have := ih1 (p := d' :: ps') (by simp) hsub hf
        simpa [List.append_assoc] using this
    · rw [lookupN, if_neg hnd] at hd
      right
      have hr : lookupAt r (d :: ps) m = some g := by
        rw [lookupAt, hd]
        exact hsub
      exact ih2 (by simp) hr hf
  | case3 cur head r hnotdir ih =>
    intro p hp h hf
    rcases p with _ | ⟨d, ps⟩
    · exact absurd rfl hp
    obtain ⟨cs', hd, hsub⟩ := lookupAt_cons_elim h
    obtain ⟨a, e⟩ := head
    rw [lookupN] at hd
    by_cases ha : a = d
    · rw [if_pos ha] at hd
      cases hd
      exact (hnotdir a cs' rfl).elim
    · rw [if_neg ha] at hd
      have hr : lookupAt r (d :: ps) m = some g := by
        rw [lookupAt, hd]
        exact hsub
      have := ih (by simp) hr hf
      cases e with
      | raw x => simpa [walkDirs] using this
      | zip es => simpa [walkDirs] using this
      | dir cs => exact (hnotdir a cs rfl).elim

theorem walkDirs_sound :
    ∀ (cur : Path) (l : Listing), wfL l = true → ∀ {x : Path × Name × Entry},
      x ∈ walkDirs cur l →
      ∃ d ps, x.1 = cur ++ d :: ps ∧ lookupAt l (d :: ps) x.2.1 = some x.2.2 ∧
        isFile x.2.2 = true := by
  intro cur l
  induction cur, l using walkDirs.induct with
  | case1 cur =>
    intro _ x hx
    simp [walkDirs] at hx
  | case2 cur n cs r ih1 ih2 =>
    intro hw x hx
    rw [wfL_cons_iff] at hw
    obtain ⟨hn, hecs, hwr⟩ := hw
    rw [wfE] at hecs
    simp only [walkDirs, List.mem_append] at hx
    rcases hx with (hx | hx) | hx
    · rw [mem_filesPart_iff] at hx
      refine ⟨n, [], by simp [hx.1], ?_, hx.2.2⟩
      rw [lookupAt, lookupN, if_pos rfl]
      show lookupN cs x.2.1 = some x.2.2
      exact lookupN_of_mem_nodup (wfL_nodup hecs) hx.2.1
    · obtain ⟨d, ps, hpath, hlook, hfile⟩ := ih1 hecs hx
      refine ⟨n, d :: ps, by simp [hpath, List.append_assoc], ?_, hfile⟩
      rw [lookupAt, lookupN, if_pos rfl]
      exact hlook
    · obtain ⟨d, ps, hpath, hlook, hfile⟩ := ih2 hwr hx
      obtain ⟨cs', hd, hsub⟩ := lookupAt_cons_elim hlook
      have hdn : n ≠ d := by
        intro hc
        exact hn (hc ▸ mem_names_of_lookupN hd)
      refine ⟨d, ps, hpath, ?_, hfile⟩
      rw [lookupAt, lookupN, if_neg hdn, hd]
      exact hsub
  | case3 cur head r hnotdir ih =>
    intro hw x hx
    obtain ⟨a, e⟩ := head
    rw [wfL_cons_iff] at hw
    have hx' : x ∈ walkDirs cur r := by
      cases e with
      | raw y => simpa [walkDirs] using hx
      | zip es => simpa [walkDirs] using hx
      | dir cs => exact (hnotdir a cs rfl).elim
    obtain ⟨d, ps, hpath, hlook, hfile⟩ := ih hw.2.2 hx'
    obtain ⟨cs', hd, hsub⟩ := lookupAt_cons_elim hlook
    have hda : a ≠ d := by
      intro hc
      exact hw.1 (hc ▸ mem_names_of_lookupN hd)
    refine ⟨d, ps, hpath, ?_, hfile⟩
    rw [lookupAt, lookupN, if_neg hda, hd]
    exact hsub

/-- The (directory path, filename) keys of a walked file list. -/
def keysOf (xs : List (Path × Name × Entry)) : List (Path × Name) :=
  xs.map (fun i => (i.1, i.2.1))

theorem keysOf_append (xs ys : List (Path × Name × Entry)) :
    keysOf (xs ++ ys) = keysOf xs ++ keysOf ys := by
  simp [keysOf]

theorem mem_keysOf_iff {xs : List (Path × Name × Entry)} {p : Path} {m : Name} :
    (p, m) ∈ keysOf xs ↔ ∃ g, (p, m, g) ∈ xs := by
  rw [keysOf, List.mem_map]
  constructor
  · rintro ⟨⟨q, a, g⟩, hmem, hx⟩
    cases hx
    exact ⟨g, hmem⟩
  · rintro ⟨g, hg⟩
    exact ⟨(p, m, g), hg, rfl⟩

theorem mem_keysOf_filesPart {cur : Path} {l : Listing} {p : Path} {m : Name}
    (h : (p, m) ∈ keysOf (filesPart cur l)) : p = cur ∧ m ∈ names l := by
  obtain ⟨g, hg⟩ := mem_keysOf_iff.mp h
  rw [mem_filesPart_iff] at hg
  refine ⟨hg.1, ?_⟩
  rw [names, List.mem_map]
  exact ⟨(m, g), hg.2.1, rfl⟩

theorem keysOf_walkDirs_shape {cur : Path} {l : Listing} (hw : wfL l = true)
    {p : Path} {m : Name} (h : (p, m) ∈ keysOf (walkDirs cur l)) :
    ∃ d ps, p = cur ++ d :: ps ∧ d ∈ names l := by
  obtain ⟨g, hg⟩ := mem_keysOf_iff.mp h
  obtain ⟨d, ps, hpath, hlook, _⟩ := walkDirs_sound cur l hw hg
  obtain ⟨cs, hd, _⟩ := lookupAt_cons_elim hlook
  exact ⟨d, ps, hpath, mem_names_of_lookupN hd⟩

theorem filesPart_keys_nodup {cur : Path} {l : Listing} (h : (names l).Nodup) :
    (keysOf (filesPart cur l)).Nodup := by
  induction l with
  | nil => simp [filesPart, keysOf]
  | cons q r ih =>
    obtain ⟨m, g⟩ := q
    rw [names, List.map_cons, List.nodup_cons] at h
    by_cases hf : isFile g = true
    · simp only [filesPart, List.filterMap_cons, if_pos hf]
      rw [show keysOf ((cur, m, g) :: List.filterMap _ r)
          = (cur, m) :: keysOf (filesPart cur r) from rfl]
      rw [List.nodup_cons]
      refine ⟨?_, ih h.2⟩
      intro hc
      exact h.1 (mem_keysOf_filesPart hc).2
    · simp only [filesPart, List.filterMap_cons, if_neg hf]
      exact ih h.2

theorem walkDirs_keys_nodup :
    ∀ (cur : Path) (l : Listing), wfL l = true → (keysOf (walkDirs cur l)).Nodup := by
  intro cur l
  induction cur, l using walkDirs.induct with
  | case1 cur =>
    intro _
    simp [walkDirs, keysOf]
  | case2 cur n cs r ih1 ih2 =>
    intro hw
    rw [wfL_cons_iff] at hw
    obtain ⟨hn, hecs, hwr⟩ := hw
    rw [wfE] at hecs
    rw [walkDirs, keysOf_append, keysOf_append]
    have hA : (keysOf (filesPart (cur ++ [n]) cs)).Nodup :=
      filesPart_keys_nodup (wfL_nodup hecs)
    have hB : (keysOf (walkDirs (cur ++ [n]) cs)).Nodup := ih1 hecs
    have hAB : (keysOf (filesPart (cur ++ [n]) cs)
        ++ keysOf (walkDirs (cur ++ [n]) cs)).Nodup := by
      refine hA.append hB ?_
      rw [List.disjoint_left]
      rintro ⟨p, m⟩ hpA hpB
      have h1 := (mem_keysOf_filesPart hpA).1
      obtain ⟨d, ps, h2, _⟩ := keysOf_walkDirs_shape hecs hpB
      rw [h1] at h2
      have := congrArg List.length h2
      simp at this
    refine hAB.append (ih2 hwr) ?_
    rw [List.disjoint_left]
    rintro ⟨p, m⟩ hpL hpR
    obtain ⟨d', ps', h2, hd'⟩ := keysOf_walkDirs_shape hwr hpR
    have hshape : ∃ t, p = cur ++ n :: t := by
      rcases List.mem_append.mp hpL with hpA | hpB
      · exact ⟨[], (mem_keysOf_filesPart hpA).1.symm ▸ by simp⟩
      · obtain ⟨d, ps, h3, _⟩ := keysOf_walkDirs_shape hecs hpB
        exact ⟨d :: ps, by rw [h3]; simp [List.append_assoc]⟩
    obtain ⟨t, ht⟩ := hshape
    rw [ht] at h2
    have h4 : n :: t = d' :: ps' := (List.append_inj h2 rfl).2
    have h5 : n = d' := (List.cons.injEq _ _ _ _).mp h4 |>.1
    exact hn (h5 ▸ hd')
  | case3 cur head r hnotdir ih =>
    intro hw
    obtain ⟨a, e⟩ := head
    rw [wfL_cons_iff] at hw
    cases e with
    | raw y => simpa [walkDirs] using ih hw.2.2
    | zip es => simpa [walkDirs] using ih hw.2.2
    | dir cs => exact (hnotdir a cs rfl).elim

theorem walkDir_keys_nodup (cur : Path) (l : Listing) (hw : wfL l = true) :
    (keysOf (walkDir cur l)).Nodup := by
  rw [walkDir, keysOf_append]
  refine (filesPart_keys_nodup (wfL_nodup hw)).append (walkDirs_keys_nodup cur l hw) ?_
  rw [List.disjoint_left]
  rintro ⟨p, m⟩ hpA hpB
  have h1 := (mem_keysOf_filesPart hpA).1
  obtain ⟨d, ps, h2, _⟩ := keysOf_walkDirs_shape hw hpB
  rw [h1] at h2
  have := congrArg List.length h2
  simp at this

theorem lookupAt_removeFileAt_self :
    ∀ (p : Path) {l : Listing} {n : Name} {e : Entry}, wfL l = true →
      lookupAt l p n = some e → isFile e = true →
      lookupAt (removeFileAt l p n) p n = none := by
  intro p
  induction p with
  | nil =>
    intro l n e hw h hf
    rw [removeFileAt, modAt, lookupAt]
    exact lookupN_eraseN_self (wfL_nodup hw)
  | cons d ps ih =>
    intro l n e hw h hf
    obtain ⟨cs, hd, hsub⟩ := lookupAt_cons_elim h
    have hwcs : wfL cs = true := by
      have := wfE_of_lookupN hw hd
      rwa [wfE] at this
    rw [removeFileAt, modAt, lookupAt, lookupN_modBind_self, hd]
    show lookupAt (modAt cs ps (fun cs => eraseN cs n)) ps n = none
    exact ih hwcs hsub hf

theorem lookupAt_removeFileAt_frame :
    ∀ (p : Path) {l : Listing} {n : Name} {e : Entry} (q : Path) (m : Name) {g : Entry},
      wfL l = true → lookupAt l p n = some e → isFile e = true →
      ¬(q = p ∧ m = n) → isFile g = true →
      (lookupAt (removeFileAt l p n) q m = some g ↔ lookupAt l q m = some g) := by
  intro p
  induction p with
  | nil =>
    intro l n e q m g hw h hf hne hg
    rw [removeFileAt, modAt]
    rcases q with _ | ⟨d, qs⟩
    · have hmn : m ≠ n := fun hc => hne ⟨rfl, hc⟩
      rw [lookupAt, lookupAt, lookupN_eraseN_ne hmn]
    · by_cases hdn : d = n
      · subst hdn
        rw [lookupAt, lookupAt, lookupN_eraseN_self (wfL_nodup hw)]
        rw [lookupAt] at h
        rw [h]
        cases e with
        | raw x => simp
        | zip es => simp
        | dir cs => cases hf
      · rw [lookupAt, lookupAt, lookupN_eraseN_ne hdn]
  | cons d' ps' ih =>
    intro l n e q m g hw h hf hne hg
    obtain ⟨cs, hd, hsub⟩ := lookupAt_cons_elim h
    have hwcs : wfL cs = true := by
      have := wfE_of_lookupN hw hd
      rwa [wfE] at this
    rw [removeFileAt, modAt]
    rcases q with _ | ⟨d, qs⟩
    · by_cases hmd : m = d'
      · subst hmd
        rw [lookupAt, lookupAt, lookupN_modBind_self, hd]
        constructor
        · intro hc
          cases hc
          cases hg
        · intro hc
          cases hc
          cases hg
      · rw [lookupAt, lookupAt, lookupN_modBind_ne _ _ hmd]
    · by_cases hdd : d = d'
      · subst hdd
        rw [lookupAt, lookupAt, lookupN_modBind_self, hd]
        show (lookupAt (modAt cs ps' (fun cs => eraseN cs n)) qs m = some g)
          ↔ lookupAt cs qs m = some g
        have hne' : ¬(qs = ps' ∧ m = n) := by
          intro hc
          exact hne ⟨by rw [hc.1], hc.2⟩
        exact ih qs m hwcs hsub hf hne' hg
      · rw [lookupAt, lookupAt, lookupN_modBind_ne _ _ hdd]

theorem datasL_append (l l' : Listing) : datasL (l ++ l') = datasL l ++ datasL l' := by
  induction l with
  | nil => simp [datasL]
  | cons q r ih =>
    obtain ⟨n, e⟩ := q
    rw [List.cons_append, datasL, datasL, ih, List.append_assoc]

theorem perm_middle_swap (x y z : List Nat) :
    List.Perm (x ++ (y ++ z)) (y ++ (x ++ z)) := by
  rw [← List.append_assoc, ← List.append_assoc]
  exact List.perm_append_comm.append_right z

theorem datasL_perm_eraseN {l : Listing} {n : Name} {e : Entry}
    (h : lookupN l n = some e) :
    List.Perm (datasL l) (datasE e ++ datasL (eraseN l n)) := by
  induction l with
  | nil => simp [lookupN] at h
  | cons q r ih =>
    obtain ⟨a, g⟩ := q
    rw [lookupN] at h
    by_cases ha : a = n
    · rw [if_pos ha] at h
      cases h
      rw [eraseN, if_pos ha, datasL]
    · rw [if_neg ha] at h
      rw [eraseN, if_neg ha, datasL, datasL]
      exact ((ih h).append_left (datasE g)).trans (perm_middle_swap _ _ _)

theorem datasL_perm_removeFileAt :
    ∀ (p : Path) {l : Listing} {n : Name} {e : Entry},
      lookupAt l p n = some e →
      List.Perm (datasL l) (datasE e ++ datasL (removeFileAt l p n)) := by
  intro p
  induction p with
  | nil =>
    intro l n e h
    rw [removeFileAt, modAt]
    exact datasL_perm_eraseN h
  | cons d ps ih =>
    intro l n e h
    obtain ⟨cs, hd, hsub⟩ := lookupAt_cons_elim h
    rw [removeFileAt, modAt]
    induction l with
    | nil => simp [lookupN] at hd
    | cons q r ihl =>
      obtain ⟨a, g⟩ := q
      rw [lookupN] at hd
      by_cases ha : a = d
      · rw [if_pos ha] at hd
        cases hd
        rw [modBind, if_pos ha, datasL, datasL]
        show List.Perm (datasL cs ++ datasL r) (datasE e ++
          (datasE (Entry.dir (modAt cs ps (fun cs => eraseN cs n))) ++ datasL r))
        rw [datasE]
        have hrec := ih hsub
        rw [removeFileAt] at hrec
        have h2 := hrec.append_right (datasL r)
        rw [List.append_assoc] at h2
        exact h2
      · rw [if_neg ha] at hd
        rw [modBind, if_neg ha, datasL, datasL]
        have hr : lookupAt r (d :: ps) n = some e := by
          rw [lookupAt, hd]
          exact hsub
        have hrec := ihl hr hd
        exact (hrec.append_left (datasE g)).trans (perm_middle_swap _ _ _)

theorem datasE_of_fileFree :
    ∀ (l : Listing), fileFreeL l = true → datasL l = [] := by
  refine fileFreeL.induct
    (fun e => fileFreeE e = true → datasE e = [])
    (fun l => fileFreeL l = true → datasL l = [])
    ?_ ?_ ?_ ?_
  · intro cs ih h
    rw [fileFreeE] at h
    rw [datasE]
    exact ih h
  · intro t hnot h
    cases t with
    | raw x =>
      have hfalse : fileFreeE (Entry.raw x) = false := by
        rw [fileFreeE]
        exact fun cs hc => Entry.noConfusion hc
      rw [hfalse] at h
      cases h
    | zip es =>
      have hfalse : fileFreeE (Entry.zip es) = false := by
        rw [fileFreeE]
        exact fun cs hc => Entry.noConfusion hc
      rw [hfalse] at h
      cases h
    | dir cs => exact (hnot cs rfl).elim
  · intro _
    rw [datasL]
  · intro n e r ihe ihr h
    rw [fileFreeL, Bool.and_eq_true] at h
    rw [datasL, ihe h.1, ihr h.2]
    rfl

theorem fileFreeL_of_no_files :
    ∀ (cs : Listing), wfL cs = true →
      (∀ q m g, lookupAt cs q m = some g → isFile g = true → False) →
      fileFreeL cs = true := by
  refine wfL.induct
    (fun e => ∀ c, e = Entry.dir c → wfL c = true →
      (∀ q m g, lookupAt c q m = some g → isFile g = true → False) →
      fileFreeL c = true)
    (fun cs => wfL cs = true →
      (∀ q m g, lookupAt cs q m = some g → isFile g = true → False) →
      fileFreeL cs = true)
    ?_ ?_ ?_ ?_ ?_
  · intro data c hc
    exact Entry.noConfusion hc
  · intro entries ih c hc
    exact Entry.noConfusion hc
  · intro children ih c hc hw hno
    injection hc with h1
    subst h1
    exact ih hw hno
  · intro _ _
    rw [fileFreeL]
  · intro n e r ihe ihr hw hno
    rw [wfL_cons_iff] at hw
    rw [fileFreeL, Bool.and_eq_true]
    constructor
    · cases e with
      | raw x =>
        exact (hno [] n (Entry.raw x) (by rw [lookupAt, lookupN, if_pos rfl]) rfl).elim
      | zip es =>
        exact (hno [] n (Entry.zip es) (by rw [lookupAt, lookupN, if_pos rfl]) rfl).elim
      | dir c =>
        rw [fileFreeE]
        have hwc : wfL c = true := by
          have := hw.2.1
          rwa [wfE] at this
        refine ihe c rfl hwc ?_
        intro q m g hl hf
        refine hno (n :: q) m g ?_ hf
        rw [lookupAt, lookupN, if_pos rfl]
        exact hl
    · refine ihr hw.2.2 ?_
      intro q m g hl hf
      rcases q with _ | ⟨d, qs⟩
      · rw [lookupAt] at hl
        have ha : n ≠ m := by
          intro hc
          exact hw.1 (hc ▸ mem_names_of_lookupN hl)
        refine hno [] m g ?_ hf
        rw [lookupAt, lookupN, if_neg ha]
        exact hl
      · obtain ⟨cs', hd, hsub⟩ := lookupAt_cons_elim hl
        have ha : n ≠ d := by
          intro hc
          exact hw.1 (hc ▸ mem_names_of_lookupN hd)
        refine hno (d :: qs) m g ?_ hf
        rw [lookupAt, lookupN, if_neg ha, hd]
        exact hsub

/-- Master lemma for a failure-free run of the shared move loop: it returns
normally; well-formedness is preserved; every file in the region `P` that the
walked list covered has been moved away; the multiset of raw contents is
preserved; and top-level directory bindings survive as directories. -/
theorem moveLoop_noFail_master (P : Path → Prop) (hPnil : ∀ q, P q → q ≠ []) :
    ∀ (ms : List (Path × Name × Entry)) (st : St),
      wfL st.root = true →
      (∀ i ∈ ms, i.1 ≠ []) →
      (keysOf ms).Nodup →
      (∀ i ∈ ms, lookupAt st.root i.1 i.2.1 = some i.2.2 ∧ isFile i.2.2 = true) →
      (∀ q m g, P q → lookupAt st.root q m = some g → isFile g = true → (q, m, g) ∈ ms) →
      ∃ st', moveLoop noFail ms st = Except.ok st' ∧
        wfL st'.root = true ∧
        (∀ q m g, P q → lookupAt st'.root q m = some g → isFile g = true → False) ∧
        List.Perm (datasL st'.root) (datasL st.root) ∧
        (∀ t cs, lookupN st.root t = some (Entry.dir cs) →
          ∃ cs', lookupN st'.root t = some (Entry.dir cs')) ∧
        st'.mv = st.mv + ms.length := by
  intro ms
  induction ms with
  | nil =>
    intro st hw _ _ _ hcomp
    refine ⟨st, rfl, hw, ?_, List.Perm.refl _, fun t cs h => ⟨cs, h⟩, by simp⟩
    intro q m g hq hl hf
    exact absurd (hcomp q m g hq hl hf) (List.not_mem_nil _)
  | cons head rest ih =>
    obtain ⟨p, n, e⟩ := head
    intro st hw hpne hkeys hpres hcomp
    obtain ⟨hphead, hfhead⟩ := hpres (p, n, e) (List.mem_cons_self _ _)
    obtain ⟨d, ps, hpshape⟩ : ∃ d ps, p = d :: ps := by
      rcases p with _ | ⟨d, ps⟩
      · exact absurd rfl (hpne (([] : Path), n, e) (List.mem_cons_self _ _))
      · exact ⟨d, ps, rfl⟩
    subst hpshape
    set tgt := resolveName (names st.root) n with htgt
    have htgtmem : tgt ∉ names st.root := resolveName_not_mem _ _
    set X := removeFileAt st.root (d :: ps) n with hX
    have hnamesX : names X = names st.root := names_modAt _ _ _ _
    have hwX : wfL X = true := wfL_removeFileAt _ _ hw
    have hwfe : wfE e = true := wfE_of_lookupAt hw hphead
    set root1 : Listing := X ++ [(tgt, e)] with hroot1
    have hw1 : wfL root1 = true :=
      wfL_append_single hwX (by rw [hnamesX]; exact htgtmem) hwfe
    set log1 : List Ev :=
      if n ∈ names st.root then Ev.warnRenamed n tgt :: st.log else st.log with hlog1
    set st1 : St := { root := root1, log := log1, mv := st.mv + 1 } with hst1
    have hkeyscons : (((d :: ps, n) :: keysOf rest) : List (Path × Name)).Nodup := by
      have hkc : keysOf ((d :: ps, n, e) :: rest) = (d :: ps, n) :: keysOf rest := rfl
      rw [hkc] at hkeys
      exact hkeys
    rw [List.nodup_cons] at hkeyscons
    have hkeyhead := hkeyscons.1
    have hkeys1 := hkeyscons.2
    have hframe : ∀ q m (g : Entry), q ≠ [] → isFile g = true → ¬(q = d :: ps ∧ m = n) →
        (lookupAt root1 q m = some g ↔ lookupAt st.root q m = some g) := by
      intro q m g hq hf hne
      obtain ⟨dq, qs, rfl⟩ : ∃ dq qs, q = dq :: qs := by
        rcases q with _ | ⟨dq, qs⟩
        · exact absurd rfl hq
        · exact ⟨dq, qs, rfl⟩
      rw [hroot1, lookupAt_append_file hfhead (by rw [hnamesX]; exact htgtmem) dq qs m]
      exact lookupAt_removeFileAt_frame (d :: ps) (dq :: qs) m hw hphead hfhead hne hf
    have hpres1 : ∀ i ∈ rest, lookupAt st1.root i.1 i.2.1 = some i.2.2 ∧
        isFile i.2.2 = true := by
      intro i hi
      obtain ⟨hpi, hfi⟩ := hpres i (List.mem_cons_of_mem _ hi)
      have hne : ¬(i.1 = d :: ps ∧ i.2.1 = n) := by
        intro hc
        refine hkeyhead ?_
        have : (i.1, i.2.1) ∈ keysOf rest := mem_keysOf_iff.mpr ⟨i.2.2, by
          obtain ⟨a, b, c⟩ := i
          exact hi⟩
        rw [hc.1, hc.2] at this
        exact this
      refine ⟨(hframe i.1 i.2.1 i.2.2 (hpne i (List.mem_cons_of_mem _ hi)) hfi hne).mpr hpi,
        hfi⟩
    have hcomp1 : ∀ q m g, P q → lookupAt st1.root q m = some g → isFile g = true →
        (q, m, g) ∈ rest := by
      intro q m g hq hl hf
      have hqnil := hPnil q hq
      by_cases hne : q = d :: ps ∧ m = n
      · exfalso
        have hnone : lookupAt X (d :: ps) n = none :=
          lookupAt_removeFileAt_self (d :: ps) hw hphead hfhead
        have hstroot : st1.root = X ++ [(tgt, e)] := rfl
        rw [hstroot, hne.1, hne.2,
          lookupAt_append_file hfhead (by rw [hnamesX]; exact htgtmem) d ps n,
          hnone] at hl
        cases hl
      · have hold : lookupAt st.root q m = some g :=
          (hframe q m g hqnil hf hne).mp hl
        have := hcomp q m g hq hold hf
        rcases List.mem_cons.mp this with h1 | h1
        · exfalso
          refine hne ?_
          cases h1
          exact ⟨rfl, rfl⟩
        · exact h1
    obtain ⟨st', hres, hw', hclear, hperm, hdirs, hmv⟩ :=
      ih st1 hw1 (fun i hi => hpne i (List.mem_cons_of_mem _ hi)) hkeys1 hpres1 hcomp1
    refine ⟨st', ?_, hw', hclear, ?_, ?_, ?_⟩
    · show moveLoop noFail ((d :: ps, n, e) :: rest) st = Except.ok st'
      rw [moveLoop]
      exact hres
    · refine hperm.trans ?_
      have h1 : datasL root1 = datasL X ++ datasE e := by
        rw [hroot1, datasL_append, datasL, datasL]
        simp
      have h2 : List.Perm (datasL st.root) (datasE e ++ datasL X) :=
        datasL_perm_removeFileAt (d :: ps) hphead
      rw [show st1.root = root1 from rfl, h1]
      exact (List.perm_append_comm).trans h2.symm
    · intro t cs hdir
      have hXdir : ∃ cs2, lookupN X t = some (Entry.dir cs2) := by
        rw [hX, removeFileAt, modAt]
        by_cases htd : t = d
        · subst htd
          rw [lookupN_modBind_self, hdir]
          exact ⟨_, rfl⟩
        · rw [lookupN_modBind_ne _ _ htd, hdir]
          exact ⟨cs, rfl⟩
      obtain ⟨cs2, hcs2⟩ := hXdir
      have h3 : lookupN root1 t = some (Entry.dir cs2) := by
        rw [hroot1, lookupN_append, hcs2]
        rfl
      exact hdirs t cs2 h3
    · rw [hmv]
      show st.mv + 1 + rest.length = st.mv + (rest.length + 1)
      omega

/-- Behaviour of the shared move loop under an arbitrary failure oracle:
whatever happens, well-formedness is preserved and root-level bindings other
than the scratch directory `t` are untouched; and if the oracle never raises
the uncaught error class, the loop returns normally. -/
theorem moveLoop_any (σ : Oracle) (t : Name) :
    ∀ (ms : List (Path × Name × Entry)) (st : St),
      wfL st.root = true →
      (∀ i ∈ ms, ∃ q', i.1 = t :: q') →
      (keysOf ms).Nodup →
      (∀ i ∈ ms, lookupAt st.root i.1 i.2.1 = some i.2.2 ∧ isFile i.2.2 = true) →
      ∃ st', (moveLoop σ ms st = Except.ok st' ∨ moveLoop σ ms st = Except.error st') ∧
        wfL st'.root = true ∧
        (∀ m, m ≠ t → m ∈ names st.root → lookupN st'.root m = lookupN st.root m) ∧
        ((∀ j, σ j ≠ some Exc.osErr) → moveLoop σ ms st = Except.ok st') := by
  intro ms
  induction ms with
  | nil =>
    intro st hw _ _ _
    exact ⟨st, Or.inl rfl, hw, fun m _ _ => rfl, fun _ => rfl⟩
  | cons head rest ih =>
    obtain ⟨p, n, e⟩ := head
    intro st hw hstart hkeys hpres
    obtain ⟨hphead, hfhead⟩ := hpres (p, n, e) (List.mem_cons_self _ _)
    obtain ⟨q', hq'⟩ := hstart (p, n, e) (List.mem_cons_self _ _)
    simp only at hq'
    subst hq'
    have hkeyscons : (((t :: q', n) :: keysOf rest) : List (Path × Name)).Nodup := by
      have hkc : keysOf ((t :: q', n, e) :: rest) = (t :: q', n) :: keysOf rest := rfl
      rw [hkc] at hkeys
      exact hkeys
    rw [List.nodup_cons] at hkeyscons
    have hkeyhead := hkeyscons.1
    have hkeys1 := hkeyscons.2
    rcases hσ : σ st.mv with _ | exc
    · -- the move succeeds
      set tgt := resolveName (names st.root) n with htgt
      have htgtmem : tgt ∉ names st.root := resolveName_not_mem _ _
      set X := removeFileAt st.root (t :: q') n with hX
      have hnamesX : names X = names st.root := names_modAt _ _ _ _
      have hwX : wfL X = true := wfL_removeFileAt _ _ hw
      have hwfe : wfE e = true := wfE_of_lookupAt hw hphead
      have hw1 : wfL (X ++ [(tgt, e)]) = true :=
        wfL_append_single hwX (by rw [hnamesX]; exact htgtmem) hwfe
      set log1 : List Ev :=
        if n ∈ names st.root then Ev.warnRenamed n tgt :: st.log else st.log with hlog1
      set st1 : St := { root := X ++ [(tgt, e)], log := log1, mv := st.mv + 1 } with hst1
      have hframe : ∀ q m (g : Entry), q ≠ [] → isFile g = true → ¬(q = t :: q' ∧ m = n) →
          (lookupAt st1.root q m = some g ↔ lookupAt st.root q m = some g) := by
        intro q m g hq hf hne
        obtain ⟨dq, qs, rfl⟩ : ∃ dq qs, q = dq :: qs := by
          rcases q with _ | ⟨dq, qs⟩
          · exact absurd rfl hq
          · exact ⟨dq, qs, rfl⟩
        have hstroot : st1.root = X ++ [(tgt, e)] := rfl
        rw [hstroot, lookupAt_append_file hfhead (by rw [hnamesX]; exact htgtmem) dq qs m]
        exact lookupAt_removeFileAt_frame (t :: q') (dq :: qs) m hw hphead hfhead hne hf
      have hpres1 : ∀ i ∈ rest, lookupAt st1.root i.1 i.2.1 = some i.2.2 ∧
          isFile i.2.2 = true := by
        intro i hi
        obtain ⟨hpi, hfi⟩ := hpres i (List.mem_cons_of_mem _ hi)
        obtain ⟨qi, hqi⟩ := hstart i (List.mem_cons_of_mem _ hi)
        have hne : ¬(i.1 = t :: q' ∧ i.2.1 = n) := by
          intro hc
          refine hkeyhead ?_
          have hmem : (i.1, i.2.1) ∈ keysOf rest := mem_keysOf_iff.mpr ⟨i.2.2, by
            obtain ⟨a, b, c⟩ := i
            exact hi⟩
          rw [hc.1, hc.2] at hmem
          exact hmem
        exact ⟨(hframe i.1 i.2.1 i.2.2 (by rw [hqi]; simp) hfi hne).mpr hpi, hfi⟩
      have hnames1 : ∀ m, m ≠ t → m ∈ names st.root →
          lookupN st1.root m = lookupN st.root m := by
        intro m hmt hmem
        have hstroot : st1.root = X ++ [(tgt, e)] := rfl
        have h1 : lookupN X m = lookupN st.root m := by
          rw [hX, removeFileAt, modAt]
          exact lookupN_modBind_ne _ _ hmt
        rw [hstroot, lookupN_append, h1]
        obtain ⟨g, hg⟩ := lookupN_isSome_of_mem hmem
        rw [hg]
        rfl
      have hstart1 : ∀ i ∈ rest, ∃ qi, i.1 = t :: qi :=
        fun i hi => hstart i (List.mem_cons_of_mem _ hi)
      obtain ⟨st', hres, hw', hnames', hok⟩ := ih st1 hw1 hstart1 hkeys1 hpres1
      have hstep : moveLoop σ ((t :: q', n, e) :: rest) st = moveLoop σ rest st1 := by
        rw [moveLoop, hσ]
      refine ⟨st', ?_, hw', ?_, ?_⟩
      · rw [hstep]
        exact hres
      · intro m hmt hmem
        have hmem1 : m ∈ names st1.root := by
          have hstroot : st1.root = X ++ [(tgt, e)] := rfl
          rw [hstroot, names_append, hnamesX]
          exact List.mem_append.mpr (Or.inl hmem)
        rw [hnames' m hmt hmem1, hnames1 m hmt hmem]
      · intro hno
        rw [hstep]
        exact hok hno
    · cases exc with
      | shErr =>
        set log1 : List Ev :=
          if n ∈ names st.root then
            Ev.warnRenamed n (resolveName (names st.root) n) :: st.log
          else st.log with hlog1
        set st1 : St := { root := st.root, log := Ev.errMove n :: log1, mv := st.mv + 1 }
          with hst1
        have hstep : moveLoop σ ((t :: q', n, e) :: rest) st = moveLoop σ rest st1 := by
          rw [moveLoop, hσ]
        obtain ⟨st', hres, hw', hnames', hok⟩ := ih st1 hw
          (fun i hi => hstart i (List.mem_cons_of_mem _ hi)) hkeys1
          (fun i hi => hpres i (List.mem_cons_of_mem _ hi))
        refine ⟨st', ?_, hw', hnames', ?_⟩
        · rw [hstep]
          exact hres
        · intro hno
          rw [hstep]
          exact hok hno
      | osErr =>
        set log1 : List Ev :=
          (if n ∈ names st.root then
            Ev.warnRenamed n (resolveName (names st.root) n) :: st.log
          else st.log) with hlog1
        refine ⟨{ root := st.root, log := log1, mv := st.mv + 1 }, ?_, hw,
          fun m _ _ => rfl, ?_⟩
        · right
          rw [moveLoop, hσ]
        · intro hno
          exact absurd hσ (hno st.mv)

theorem walkDir_start (t : Name) (l : Listing) (hw : wfL l = true) :
    ∀ i ∈ walkDir [t] l, ∃ q', i.1 = t :: q' := by
  intro i hi
  rw [walkDir, List.mem_append] at hi
  rcases hi with hi | hi
  · rw [mem_filesPart_iff] at hi
    exact ⟨[], hi.1⟩
  · obtain ⟨d, ps, hpath, _, _⟩ := walkDirs_sound [t] l hw hi
    exact ⟨d :: ps, hpath⟩

theorem walkDir_presence {root : Listing} {t : Name} {l : Listing}
    (hw : wfL l = true) (ht : t ∉ names root) :
    ∀ i ∈ walkDir [t] l,
      lookupAt (root ++ [(t, Entry.dir l)]) i.1 i.2.1 = some i.2.2 ∧
        isFile i.2.2 = true := by
  intro i hi
  rw [walkDir, List.mem_append] at hi
  rcases hi with hi | hi
  · rw [mem_filesPart_iff] at hi
    refine ⟨?_, hi.2.2⟩
    rw [hi.1, lookupAt_append_dir_self ht, lookupAt]
    exact lookupN_of_mem_nodup (wfL_nodup hw) hi.2.1
  · obtain ⟨d, ps, hpath, hlook, hfile⟩ := walkDirs_sound [t] l hw hi
    refine ⟨?_, hfile⟩
    rw [hpath]
    show lookupAt (root ++ [(t, Entry.dir l)]) (t :: d :: ps) i.2.1 = some i.2.2
    rw [lookupAt_append_dir_self ht]
    exact hlook

theorem lookupAt_eraseN_cons_ne {l : Listing} {t d : Name} (hdt : d ≠ t)
    (ps : Path) (m : Name) :
    lookupAt (eraseN l t) (d :: ps) m = lookupAt l (d :: ps) m := by
  rw [lookupAt, lookupAt, lookupN_eraseN_ne hdt]

/-- Processing one archive entry preserves well-formedness of the tree,
whatever the oracle does. -/
theorem processZip_wf (σ : Oracle) (st : St) (pn : Path × Name)
    (hw : wfL st.root = true) : wfL (processZip σ st pn).root = true := by
  rw [processZip]
  set tmp := freshTmp (names st.root) with htmp
  have htmpmem : tmp ∉ names st.root := freshTmp_not_mem _
  rcases hlook : lookupAt st.root pn.1 pn.2 with _ | e
  · show wfL (eraseN (st.root ++ [(tmp, Entry.dir [])]) tmp) = true
    exact wfL_eraseN _ (wfL_append_single hw htmpmem (by rw [wfE, wfL]))
  · cases e with
    | raw x =>
      show wfL (st.root ++ [(tmp, Entry.dir [])]) = true
      exact wfL_append_single hw htmpmem (by rw [wfE, wfL])
    | zip entries =>
      have hwentries : wfL entries = true := by
        have := wfE_of_lookupAt hw hlook
        rwa [wfE] at this
      have hw1 : wfL (st.root ++ [(tmp, Entry.dir entries)]) = true :=
        wfL_append_single hw htmpmem (by rw [wfE]; exact hwentries)
      set st1 : St := { st with root := st.root ++ [(tmp, Entry.dir entries)] } with hst1
      obtain ⟨st2, hres, hw2, _, _⟩ := moveLoop_any σ tmp (walkDir [tmp] entries) st1
        hw1 (walkDir_start tmp entries hwentries)
        (walkDir_keys_nodup [tmp] entries hwentries)
        (walkDir_presence hwentries htmpmem)
      show wfL ((match moveLoop σ (walkDir [tmp] entries) st1 with
        | Except.ok st3 => St.mk (removeFileAt (eraseN st3.root tmp) pn.1 pn.2) st3.log st3.mv
        | Except.error st3 => St.mk (eraseN st3.root tmp) (Ev.errZip pn.1 pn.2 :: st3.log) st3.mv).root) = true
      rcases hres with hres | hres
      · rw [hres]
        exact wfL_removeFileAt _ _ (wfL_eraseN _ hw2)
      · rw [hres]
        exact wfL_eraseN _ hw2
    | dir cs =>
      show wfL (eraseN (st.root ++ [(tmp, Entry.dir [])]) tmp) = true
      exact wfL_eraseN _ (wfL_append_single hw htmpmem (by rw [wfE, wfL]))

/-- On a well-formed tree, processing an entry that parses as an archive
deletes the archive file whenever the oracle never raises the uncaught error
class during its moves — even if some moves failed with the caught class. -/
theorem processZip_deletes (σ : Oracle) (st : St) (pn : Path × Name)
    (entries : Listing) (hw : wfL st.root = true)
    (hzip : lookupAt st.root pn.1 pn.2 = some (Entry.zip entries))
    (hno : ∀ j, σ j ≠ some Exc.osErr) :
    lookupAt (processZip σ st pn).root pn.1 pn.2 = none := by
  rw [processZip]
  set tmp := freshTmp (names st.root) with htmp
  have htmpmem : tmp ∉ names st.root := freshTmp_not_mem _
  rw [hzip]
  have hwentries : wfL entries = true := by
    have := wfE_of_lookupAt hw hzip
    rwa [wfE] at this
  have hw1 : wfL (st.root ++ [(tmp, Entry.dir entries)]) = true :=
    wfL_append_single hw htmpmem (by rw [wfE]; exact hwentries)
  set st1 : St := { st with root := st.root ++ [(tmp, Entry.dir entries)] } with hst1
  obtain ⟨st2, hres, hw2, hframe, hok⟩ := moveLoop_any σ tmp (walkDir [tmp] entries) st1
    hw1 (walkDir_start tmp entries hwentries)
    (walkDir_keys_nodup [tmp] entries hwentries)
    (walkDir_presence hwentries htmpmem)
  show lookupAt ((match moveLoop σ (walkDir [tmp] entries) st1 with
    | Except.ok st3 => St.mk (removeFileAt (eraseN st3.root tmp) pn.1 pn.2) st3.log st3.mv
    | Except.error st3 => St.mk (eraseN st3.root tmp) (Ev.errZip pn.1 pn.2 :: st3.log) st3.mv).root) pn.1 pn.2 = none
  rw [hok hno]
  show lookupAt (removeFileAt (eraseN st2.root tmp) pn.1 pn.2) pn.1 pn.2 = none
  have hwerase : wfL (eraseN st2.root tmp) = true := wfL_eraseN _ hw2
  have hpres2 : lookupAt (eraseN st2.root tmp) pn.1 pn.2 = some (Entry.zip entries) := by
    rcases hp : pn.1 with _ | ⟨d, ps⟩
    · rw [hp] at hzip
      rw [lookupAt] at hzip ⊢
      have hne : pn.2 ≠ tmp := fun hc => htmpmem (hc ▸ mem_names_of_lookupN hzip)
      rw [lookupN_eraseN_ne hne]
      have hmem1 : pn.2 ∈ names st1.root := by
        show pn.2 ∈ names (st.root ++ [(tmp, Entry.dir entries)])
        rw [names_append]
        exact List.mem_append.mpr (Or.inl (mem_names_of_lookupN hzip))
      rw [hframe pn.2 hne hmem1]
      show lookupN (st.root ++ [(tmp, Entry.dir entries)]) pn.2 = some (Entry.zip entries)
      rw [lookupN_append, hzip]
      rfl
    · rw [hp] at hzip
      obtain ⟨cs, hd, hsub⟩ := lookupAt_cons_elim hzip
      have hne : d ≠ tmp := fun hc => htmpmem (hc ▸ mem_names_of_lookupN hd)
      rw [lookupAt_eraseN_cons_ne hne]
      have hmem1 : d ∈ names st1.root := by
        show d ∈ names (st.root ++ [(tmp, Entry.dir entries)])
        rw [names_append]
        exact List.mem_append.mpr (Or.inl (mem_names_of_lookupN hd))
      rw [lookupAt, hframe d hne hmem1]
      show (match lookupN (st.root ++ [(tmp, Entry.dir entries)]) d with
        | some (Entry.dir cs) => lookupAt cs ps pn.2
        | _ => none) = some (Entry.zip entries)
      rw [lookupN_append, hd]
      exact hsub
  exact lookupAt_removeFileAt_self pn.1 hwerase hpres2 rfl

theorem dirNamesPart_shift (cur0 c : Path) (l : Listing) :
    dirNamesPart (cur0 ++ c) l = (dirNamesPart c l).map (fun i => (cur0 ++ i.1, i.2)) := by
  induction l with
  | nil => simp [dirNamesPart]
  | cons q r ih =>
    obtain ⟨n, e⟩ := q
    cases e with
    | raw x => simpa [dirNamesPart, List.filterMap_cons] using ih
    | zip es => simpa [dirNamesPart, List.filterMap_cons] using ih
    | dir cs =>
      simp only [dirNamesPart, List.filterMap_cons] at ih ⊢
      rw [List.map_cons]
      exact congrArg _ ih

theorem buDirsAux_shift_gen :
    ∀ (c : Path) (l : Listing) (cur0 : Path),
      buDirsAux (cur0 ++ c) l = (buDirsAux c l).map (fun i => (cur0 ++ i.1, i.2)) := by
  intro c l
  induction c, l using buDirsAux.induct with
  | case1 c =>
    intro cur0
    simp [buDirsAux]
  | case2 c n cs r ih1 ih2 =>
    intro cur0
    rw [buDirsAux, buDirsAux, List.map_append, List.map_append]
    have h1 : (cur0 ++ c) ++ [n] = cur0 ++ (c ++ [n]) := by rw [List.append_assoc]
    rw [h1, ih1 cur0, ih2 cur0, dirNamesPart_shift cur0 (c ++ [n]) cs]
  | case3 c head r hnotdir ih =>
    intro cur0
    obtain ⟨a, e⟩ := head
    cases e with
    | raw x => simpa [buDirsAux] using ih cur0
    | zip es => simpa [buDirsAux] using ih cur0
    | dir cs => exact (hnotdir a cs rfl).elim

theorem buDirsAux_shift (cur : Path) (l : Listing) :
    buDirsAux cur l = (buDirsAux [] l).map (fun i => (cur ++ i.1, i.2)) := by
  have := buDirsAux_shift_gen [] l cur
  simpa using this

theorem buDirsAux_shape :
    ∀ (cur : Path) (l : Listing) (i : Path × Name), i ∈ buDirsAux cur l →
      ∃ d ps, i.1 = cur ++ d :: ps ∧ d ∈ names l := by
  intro cur l
  induction cur, l using buDirsAux.induct with
  | case1 cur =>
    intro i hi
    simp [buDirsAux] at hi
  | case2 cur n cs r ih1 ih2 =>
    intro i hi
    rw [buDirsAux, List.mem_append, List.mem_append] at hi
    rcases hi with (hi | hi) | hi
    · obtain ⟨d, ps, hpath, _⟩ := ih1 i hi
      refine ⟨n, d :: ps, ?_, by simp [names]⟩
      rw [hpath, List.append_assoc]
      rfl
    · rw [dirNamesPart, List.mem_filterMap] at hi
      obtain ⟨⟨m, g⟩, _, hg⟩ := hi
      cases g with
      | raw x => cases hg
      | zip es => cases hg
      | dir cs' =>
        cases hg
        exact ⟨n, [], by simp, by simp [names]⟩
    · obtain ⟨d, ps, hpath, hd⟩ := ih2 i hi
      refine ⟨d, ps, hpath, ?_⟩
      rw [names, List.map_cons, List.mem_cons]
      exact Or.inr hd
  | case3 cur head r hnotdir ih =>
    intro i hi
    obtain ⟨a, e⟩ := head
    have hi' : i ∈ buDirsAux cur r := by
      cases e with
      | raw x => simpa [buDirsAux] using hi
      | zip es => simpa [buDirsAux] using hi
      | dir cs => exact (hnotdir a cs rfl).elim
    obtain ⟨d, ps, hpath, hd⟩ := ih i hi'
    refine ⟨d, ps, hpath, ?_⟩
    rw [names, List.map_cons, List.mem_cons]
    exact Or.inr hd

theorem dirNamesPart_mem_names {cur : Path} {l : Listing} {i : Path × Name}
    (hi : i ∈ dirNamesPart cur l) : i.1 = cur ∧ i.2 ∈ names l := by
  rw [dirNamesPart, List.mem_filterMap] at hi
  obtain ⟨⟨m, g⟩, hmem, hg⟩ := hi
  cases g with
  | raw x => cases hg
  | zip es => cases hg
  | dir cs =>
    cases hg
    exact ⟨rfl, by rw [names, List.mem_map]; exact ⟨(m, Entry.dir cs), hmem, rfl⟩⟩

/-- One phase-3 prune step leaves a listing's head binding alone when it
addresses a different name. -/
theorem pruneOne_skip_head {n : Name} (e : Entry) (r : Listing) (i : Path × Name)
    (hskip : (match i.1 with
      | [] => i.2 ≠ n
      | d :: _ => d ≠ n)) :
    pruneOne ((n, e) :: r) i.1 i.2 = (n, e) :: pruneOne r i.1 i.2 := by
  obtain ⟨p, m⟩ := i
  rcases p with _ | ⟨d, ps⟩
  · simp only at hskip
    show (match lookupN ((n, e) :: r) m with
      | some (Entry.dir cs) => if cs.isEmpty then eraseN ((n, e) :: r) m else (n, e) :: r
      | _ => (n, e) :: r)
      = (n, e) :: (match lookupN r m with
      | some (Entry.dir cs) => if cs.isEmpty then eraseN r m else r
      | _ => r)
    rw [lookupN, if_neg (fun hc => hskip hc.symm)]
    rcases hl : lookupN r m with _ | g
    · rfl
    · cases g with
      | raw x => rfl
      | zip es => rfl
      | dir cs =>
        show (if cs.isEmpty then eraseN ((n, e) :: r) m else (n, e) :: r)
          = (n, e) :: (if cs.isEmpty then eraseN r m else r)
        by_cases hemp : cs.isEmpty
        · rw [if_pos hemp, if_pos hemp, eraseN, if_neg (fun hc => hskip hc.symm)]
        · rw [if_neg hemp, if_neg hemp]
  · simp only at hskip
    rw [pruneOne, pruneOne, modBind, if_neg (fun hc => hskip hc.symm)]

theorem foldl_prune_skip (n : Name) (e : Entry) (r : Listing) :
    ∀ (items : List (Path × Name)),
      (∀ i ∈ items, (match i.1 with
        | [] => i.2 ≠ n
        | d :: _ => d ≠ n)) →
      items.foldl (fun acc pn => pruneOne acc pn.1 pn.2) ((n, e) :: r)
        = (n, e) :: items.foldl (fun acc pn => pruneOne acc pn.1 pn.2) r := by
  intro items
  induction items generalizing r with
  | nil => intro _; rfl
  | cons i rest ih =>
    intro hskip
    rw [List.foldl_cons, List.foldl_cons,
      pruneOne_skip_head e r i (hskip i (List.mem_cons_self _ _))]
    exact ih _ (fun j hj => hskip j (List.mem_cons_of_mem _ hj))

theorem foldl_prune_shift (n : Name) (r : Listing) :
    ∀ (items : List (Path × Name)) (cs : Listing),
      (items.map (fun i => (n :: i.1, i.2))).foldl
        (fun acc pn => pruneOne acc pn.1 pn.2) ((n, Entry.dir cs) :: r)
      = (n, Entry.dir (items.foldl (fun acc pn => pruneOne acc pn.1 pn.2) cs)) :: r := by
  intro items
  induction items with
  | nil => intro cs; rfl
  | cons i rest ih =>
    intro cs
    obtain ⟨p, m⟩ := i
    rw [List.map_cons, List.foldl_cons, List.foldl_cons]
    have hstep : pruneOne ((n, Entry.dir cs) :: r) (n :: p) m
        = (n, Entry.dir (pruneOne cs p m)) :: r := by
      rw [pruneOne, modBind, if_pos rfl]
    rw [hstep]
    exact ih (pruneOne cs p m)

theorem fileFreeL_forall {l : Listing} (h : fileFreeL l = true) :
    ∀ q ∈ l, fileFreeE q.2 = true := by
  induction l with
  | nil => intro q hq; cases hq
  | cons q0 r ih =>
    obtain ⟨n, e⟩ := q0
    rw [fileFreeL, Bool.and_eq_true] at h
    intro q hq
    rcases List.mem_cons.mp hq with h1 | h1
    · rw [h1]
      exact h.1
    · exact ih h.2 q h1

theorem fileFree_filter_nil {l : Listing} (h : fileFreeL l = true) :
    l.filter (fun q => isFile q.2) = [] := by
  induction l with
  | nil => rfl
  | cons q r ih =>
    obtain ⟨n, e⟩ := q
    rw [fileFreeL, Bool.and_eq_true] at h
    have hnotfile : isFile e = false := by
      cases e with
      | raw x =>
        have := h.1
        have hfalse : fileFreeE (Entry.raw x) = false := by
          rw [fileFreeE]
          exact fun cs hc => Entry.noConfusion hc
        rw [hfalse] at this
        cases this
      | zip es =>
        have := h.1
        have hfalse : fileFreeE (Entry.zip es) = false := by
          rw [fileFreeE]
          exact fun cs hc => Entry.noConfusion hc
        rw [hfalse] at this
        cases this
      | dir cs => rfl
    rw [List.filter_cons]
    simp only [hnotfile]
    exact ih h.2

theorem wfE_of_mem {l : Listing} {q : Name × Entry} (hw : wfL l = true) (hq : q ∈ l) :
    wfE q.2 = true := by
  induction l with
  | nil => cases hq
  | cons q0 r ih =>
    obtain ⟨n, e⟩ := q0
    rw [wfL_cons_iff] at hw
    rcases List.mem_cons.mp hq with h1 | h1
    · rw [h1]
      exact hw.2.1
    · exact ih hw.2.2 h1

theorem buDirsAux_shift_one (n : Name) (l : Listing) :
    buDirsAux [n] l = (buDirsAux [] l).map (fun i => (n :: i.1, i.2)) := by
  have := buDirsAux_shift [n] l
  simpa using this

theorem dirNamesPart_shift_one (n : Name) (l : Listing) :
    dirNamesPart [n] l = (dirNamesPart [] l).map (fun i => (n :: i.1, i.2)) := by
  have h := dirNamesPart_shift [n] [] l
  simpa using h

theorem buDirsAux_cons_file (cur : Path) (n : Name) (e : Entry) (r : Listing)
    (hf : isFile e = true) : buDirsAux cur ((n, e) :: r) = buDirsAux cur r := by
  cases e with
  | raw x => simp [buDirsAux]
  | zip es => simp [buDirsAux]
  | dir cs => cases hf

theorem dirNamesPart_cons_file (cur : Path) (n : Name) (e : Entry) (r : Listing)
    (hf : isFile e = true) : dirNamesPart cur ((n, e) :: r) = dirNamesPart cur r := by
  cases e with
  | raw x => rfl
  | zip es => rfl
  | dir cs => cases hf

theorem pruneOne_head_empty (n : Name) (X : Listing) :
    pruneOne ((n, Entry.dir []) :: X) [] n = X := by
  show (match lookupN ((n, Entry.dir []) :: X) n with
    | some (Entry.dir cs) =>
        if cs.isEmpty then eraseN ((n, Entry.dir []) :: X) n else (n, Entry.dir []) :: X
    | _ => (n, Entry.dir []) :: X) = X
  rw [lookupN, if_pos rfl]
  show (if (List.isEmpty []) then eraseN ((n, Entry.dir []) :: X) n
    else (n, Entry.dir []) :: X) = X
  rw [if_pos (show ([] : Listing).isEmpty = true from rfl), eraseN, if_pos rfl]

/-- Phase 3 on a well-formed listing whose directory entries contain no files
removes exactly the directory entries: only the files remain. -/
theorem phase3_fold_main :
    ∀ (l : Listing), wfL l = true →
      (∀ q ∈ l, isFile q.2 = true ∨ fileFreeE q.2 = true) →
      (buDirs [] l).foldl (fun acc pn => pruneOne acc pn.1 pn.2) l
        = l.filter (fun q => isFile q.2) := by
  refine wfL.induct
    (fun e => ∀ cs, e = Entry.dir cs → wfL cs = true →
      (∀ q ∈ cs, isFile q.2 = true ∨ fileFreeE q.2 = true) →
      (buDirs [] cs).foldl (fun acc pn => pruneOne acc pn.1 pn.2) cs
        = cs.filter (fun q => isFile q.2))
    (fun l => wfL l = true →
      (∀ q ∈ l, isFile q.2 = true ∨ fileFreeE q.2 = true) →
      (buDirs [] l).foldl (fun acc pn => pruneOne acc pn.1 pn.2) l
        = l.filter (fun q => isFile q.2))
    ?_ ?_ ?_ ?_ ?_
  · intro data c hc
    exact Entry.noConfusion hc
  · intro entries _ c hc
    exact Entry.noConfusion hc
  · intro children ih c hc
    injection hc with h1
    subst h1
    exact ih
  · intro _ _
    rw [show buDirs [] [] = [] from by rw [buDirs, buDirsAux]; rfl]
    rfl
  · intro n e r ihe ihr hw hff
    rw [wfL_cons_iff] at hw
    obtain ⟨hn, hwe, hwr⟩ := hw
    have hffr : ∀ q ∈ r, isFile q.2 = true ∨ fileFreeE q.2 = true :=
      fun q hq => hff q (List.mem_cons_of_mem _ hq)
    have hskipB : ∀ i ∈ buDirsAux [] r, (match i.1 with
        | [] => i.2 ≠ n
        | d :: _ => d ≠ n) := by
      intro i hi
      obtain ⟨d, ps, hpath, hd⟩ := buDirsAux_shape [] r i hi
      have hpath2 : i.1 = d :: ps := hpath
      rw [hpath2]
      exact fun hc => hn (hc ▸ hd)
    have hskipD : ∀ i ∈ dirNamesPart [] r, (match i.1 with
        | [] => i.2 ≠ n
        | d :: _ => d ≠ n) := by
      intro i hi
      obtain ⟨hpath, hd⟩ := dirNamesPart_mem_names hi
      rw [hpath]
      exact fun hc => hn (hc ▸ hd)
    by_cases hfe : isFile e = true
    · rw [buDirs, buDirsAux_cons_file [] n e r hfe, dirNamesPart_cons_file [] n e r hfe]
      rw [List.foldl_append,
        foldl_prune_skip n e r (buDirsAux [] r) hskipB,
        foldl_prune_skip n e
          (List.foldl (fun acc pn => pruneOne acc pn.1 pn.2) r (buDirsAux [] r))
          (dirNamesPart [] r) hskipD]
      rw [← List.foldl_append]
      rw [show buDirsAux [] r ++ dirNamesPart [] r = buDirs [] r from rfl]
      rw [ihr hwr hffr, List.filter_cons, if_pos hfe]
    · cases e with
      | raw x => exact absurd rfl hfe
      | zip es => exact absurd rfl hfe
      | dir cs =>
        have hcsff : fileFreeL cs = true := by
          rcases hff (n, Entry.dir cs) (List.mem_cons_self _ _) with h1 | h1
          · cases h1
          · rwa [fileFreeE] at h1
        have hwcs : wfL cs = true := by rwa [wfE] at hwe
        have hclaimcs := ihe cs rfl hwcs
          (fun q hq => Or.inr (fileFreeL_forall hcsff q hq))
        have hbu : buDirsAux [] ((n, Entry.dir cs) :: r)
            = (buDirs [] cs).map (fun i => (n :: i.1, i.2)) ++ buDirsAux [] r := by
          rw [buDirsAux]
          rw [show (([] : Path) ++ [n]) = [n] from rfl]
          rw [buDirsAux_shift_one n cs, dirNamesPart_shift_one n cs]
          rw [buDirs, List.map_append]
        have hdnp : dirNamesPart [] ((n, Entry.dir cs) :: r)
            = ([], n) :: dirNamesPart [] r := rfl
        rw [buDirs, hbu, hdnp]
        rw [List.append_assoc, List.foldl_append]
        rw [foldl_prune_shift n r (buDirs [] cs) cs, hclaimcs, fileFree_filter_nil hcsff]
        rw [List.foldl_append, foldl_prune_skip n (Entry.dir []) r (buDirsAux [] r) hskipB]
        rw [List.foldl_cons]
        rw [show pruneOne ((n, Entry.dir []) ::
            (buDirsAux [] r).foldl (fun acc pn => pruneOne acc pn.1 pn.2) r) ([], n).1 ([], n).2
          = (buDirsAux [] r).foldl (fun acc pn => pruneOne acc pn.1 pn.2) r from
          pruneOne_head_empty n _]
        rw [← List.foldl_append]
        rw [show buDirsAux [] r ++ dirNamesPart [] r = buDirs [] r from rfl]
        rw [ihr hwr hffr, List.filter_cons]
        rw [if_neg hfe]

theorem entries_file_or_fileFree {l : Listing} (hw : wfL l = true)
    (hno : ∀ q m g, q ≠ [] → lookupAt l q m = some g → isFile g = true → False) :
    ∀ q ∈ l, isFile q.2 = true ∨ fileFreeE q.2 = true := by
  rintro ⟨n, e⟩ hq
  cases e with
  | raw x => exact Or.inl rfl
  | zip es => exact Or.inl rfl
  | dir cs =>
    right
    rw [fileFreeE]
    have hwcs : wfL cs = true := by
      have := wfE_of_mem hw hq
      rwa [wfE] at this
    refine fileFreeL_of_no_files cs hwcs ?_
    intro q m g hl hf
    have hd : lookupN l n = some (Entry.dir cs) :=
      lookupN_of_mem_nodup (wfL_nodup hw) hq
    refine hno (n :: q) m g (by simp) ?_ hf
    rw [lookupAt, hd]
    exact hl

theorem walkDir_complete (t : Name) (l : Listing) :
    ∀ (q : Path) (m : Name) (g : Entry), lookupAt l q m = some g → isFile g = true →
      (t :: q, m, g) ∈ walkDir [t] l := by
  intro q m g hl hf
  rw [walkDir, List.mem_append]
  rcases q with _ | ⟨d, ps⟩
  · left
    rw [mem_filesPart_iff]
    rw [lookupAt] at hl
    exact ⟨rfl, mem_of_lookupN hl, hf⟩
  · right
    have := walkDirs_complete [t] l (p := d :: ps) (by simp) hl hf
    simpa using this

/-- Every root-level file name after a failure-free move loop either existed
before the loop or is the collision-resolved name of one of the moved
files. -/
theorem moveLoop_noFail_names :
    ∀ (ms : List (Path × Name × Entry)) (st st' : St),
      (∀ i ∈ ms, i.1 ≠ []) →
      moveLoop noFail ms st = Except.ok st' →
      ∀ x g, lookupN st'.root x = some g → isFile g = true →
        (∃ g0, lookupN st.root x = some g0 ∧ isFile g0 = true) ∨
        ∃ i ∈ ms, ∃ ns, x = resolveName ns i.2.1 := by
  intro ms
  induction ms with
  | nil =>
    intro st st' _ hres x g hx hf
    cases hres
    exact Or.inl ⟨g, hx, hf⟩
  | cons head rest ih =>
    obtain ⟨p, n, e⟩ := head
    intro st st' hpne hres x g hx hf
    obtain ⟨d, ps, rfl⟩ : ∃ d ps, p = d :: ps := by
      rcases p with _ | ⟨d, ps⟩
      · exact absurd rfl (hpne (([] : Path), n, e) (List.mem_cons_self _ _))
      · exact ⟨d, ps, rfl⟩
    rw [moveLoop] at hres
    have hres' : moveLoop noFail rest
        { root := removeFileAt st.root (d :: ps) n ++ [(resolveName (names st.root) n, e)],
          log := (if n ∈ names st.root then
            Ev.warnRenamed n (resolveName (names st.root) n) :: st.log else st.log),
          mv := st.mv + 1 } = Except.ok st' := hres
    have := ih _ st' (fun i hi => hpne i (List.mem_cons_of_mem _ hi)) hres' x g hx hf
    rcases this with ⟨g0, hg0, hfg0⟩ | ⟨i, hi, ns, hns⟩
    · rw [lookupN_append] at hg0
      rcases hX : lookupN (removeFileAt st.root (d :: ps) n) x with _ | gX
      · rw [hX, Option.none_or] at hg0
        rw [lookupN] at hg0
        by_cases hxr : resolveName (names st.root) n = x
        · rw [if_pos hxr] at hg0
          cases hg0
          right
          exact ⟨(d :: ps, n, e), List.mem_cons_self _ _, names st.root, hxr.symm⟩
        · rw [if_neg hxr] at hg0
          cases hg0
      · rw [hX] at hg0
        have hg0' : gX = g0 := by
          cases hg0
          rfl
        subst hg0'
        rw [removeFileAt, modAt] at hX
        by_cases hxd : x = d
        · subst hxd
          rw [lookupN_modBind_self, Option.map_eq_some'] at hX
          obtain ⟨a, ha, hfa⟩ := hX
          cases a with
          | raw y =>
            left
            refine ⟨Entry.raw y, ha, ?_⟩
            have h9 : Entry.raw y = gX := hfa
            rw [h9]
            exact hfg0
          | zip es =>
            left
            refine ⟨Entry.zip es, ha, ?_⟩
            have h9 : Entry.zip es = gX := hfa
            rw [h9]
            exact hfg0
          | dir cs =>
            exfalso
            have h9 : Entry.dir (modAt cs ps (fun cs => eraseN cs n)) = gX := hfa
            rw [← h9] at hfg0
            cases hfg0
        · rw [lookupN_modBind_ne _ _ hxd] at hX
          exact Or.inl ⟨gX, hX, hfg0⟩
    · exact Or.inr ⟨i, List.mem_cons_of_mem _ hi, ns, hns⟩

/-- A failure-free processing of one scanned entry preserves well-formedness
and the multiset of raw contents of the tree. -/
theorem processZip_noFail (st : St) (pn : Path × Name) (hw : wfL st.root = true) :
    wfL (processZip noFail st pn).root = true ∧
    List.Perm (datasL (processZip noFail st pn).root) (datasL st.root) := by
  rw [processZip]
  set tmp := freshTmp (names st.root) with htmp
  have htmpmem : tmp ∉ names st.root := freshTmp_not_mem _
  rcases hlook : lookupAt st.root pn.1 pn.2 with _ | e
  · constructor
    · show wfL (eraseN (st.root ++ [(tmp, Entry.dir [])]) tmp) = true
      exact wfL_eraseN _ (wfL_append_single hw htmpmem (by rw [wfE, wfL]))
    · show List.Perm (datasL (eraseN (st.root ++ [(tmp, Entry.dir [])]) tmp)) (datasL st.root)
      rw [eraseN_append_self htmpmem]
  · cases e with
    | raw x =>
      constructor
      · show wfL (st.root ++ [(tmp, Entry.dir [])]) = true
        exact wfL_append_single hw htmpmem (by rw [wfE, wfL])
      · show List.Perm (datasL (st.root ++ [(tmp, Entry.dir [])])) (datasL st.root)
        rw [datasL_append]
        rw [show datasL [(tmp, Entry.dir [])] = [] from rfl]
        rw [List.append_nil]
    | dir cs =>
      constructor
      · show wfL (eraseN (st.root ++ [(tmp, Entry.dir [])]) tmp) = true
        exact wfL_eraseN _ (wfL_append_single hw htmpmem (by rw [wfE, wfL]))
      · show List.Perm (datasL (eraseN (st.root ++ [(tmp, Entry.dir [])]) tmp)) (datasL st.root)
        rw [eraseN_append_self htmpmem]
    | zip entries =>
      have hwentries : wfL entries = true := by
        have := wfE_of_lookupAt hw hlook
        rwa [wfE] at this
      have hw1 : wfL (st.root ++ [(tmp, Entry.dir entries)]) = true :=
        wfL_append_single hw htmpmem (by rw [wfE]; exact hwentries)
      set st1 : St := { st with root := st.root ++ [(tmp, Entry.dir entries)] } with hst1
      have hlooktmp : lookupN st1.root tmp = some (Entry.dir entries) :=
        lookupN_append_single_self htmpmem
      have hcomp : ∀ q m g, (∃ q', q = tmp :: q') →
          lookupAt st1.root q m = some g → isFile g = true →
          (q, m, g) ∈ walkDir [tmp] entries := by
        rintro q m g ⟨q', rfl⟩ hl hf
        have hl' : lookupAt entries q' m = some g := by
          have heq : lookupAt st1.root (tmp :: q') m = lookupAt entries q' m :=
            lookupAt_append_dir_self htmpmem q' m
          rw [heq] at hl
          exact hl
        exact walkDir_complete tmp entries q' m g hl' hf
      obtain ⟨st2, hres2, hw2, hclear2, hperm2, hdirs2, _⟩ :=
        moveLoop_noFail_master (fun q => ∃ q', q = tmp :: q')
          (by rintro q ⟨q', rfl⟩; simp)
          (walkDir [tmp] entries) st1 hw1
          (by
            intro i hi
            obtain ⟨q', hq'⟩ := walkDir_start tmp entries hwentries i hi
            rw [hq']
            simp)
          (walkDir_keys_nodup [tmp] entries hwentries)
          (walkDir_presence hwentries htmpmem)
          hcomp
      obtain ⟨cs', hcs'⟩ := hdirs2 tmp entries hlooktmp
      have hwcs' : wfL cs' = true := by
        have := wfE_of_lookupN hw2 hcs'
        rwa [wfE] at this
      have hcs'ff : fileFreeL cs' = true := by
        refine fileFreeL_of_no_files cs' hwcs' ?_
        intro q m g hl hf
        refine hclear2 (tmp :: q) m g ⟨q, rfl⟩ ?_ hf
        rw [lookupAt, hcs']
        exact hl
      have hdatascs' : datasL cs' = [] := datasE_of_fileFree cs' hcs'ff
      have hperm3 : List.Perm (datasL (eraseN st2.root tmp)) (datasL st2.root) := by
        have := datasL_perm_eraseN hcs'
        rw [show datasE (Entry.dir cs') = datasL cs' from rfl, hdatascs'] at this
        exact this.symm
      obtain ⟨st2a, _, _, hframeA, hokA⟩ := moveLoop_any noFail tmp
        (walkDir [tmp] entries) st1 hw1 (walkDir_start tmp entries hwentries)
        (walkDir_keys_nodup [tmp] entries hwentries)
        (walkDir_presence hwentries htmpmem)
      have hokA2 : moveLoop noFail (walkDir [tmp] entries) st1 = Except.ok st2a :=
        hokA (fun j => by rw [noFail]; exact fun hc => Option.noConfusion hc)
      have hA2 : st2a = st2 := by
        rw [hokA2] at hres2
        exact (Except.ok.injEq _ _).mp hres2
      rw [hA2] at hframeA
      have hpreszip : lookupAt (eraseN st2.root tmp) pn.1 pn.2 = some (Entry.zip entries) := by
        rcases hp : pn.1 with _ | ⟨d, ps⟩
        · rw [hp] at hlook
          rw [lookupAt] at hlook ⊢
          have hne : pn.2 ≠ tmp := fun hc => htmpmem (hc ▸ mem_names_of_lookupN hlook)
          rw [lookupN_eraseN_ne hne]
          have hmem1 : pn.2 ∈ names st1.root := by
            show pn.2 ∈ names (st.root ++ [(tmp, Entry.dir entries)])
            rw [names_append]
            exact List.mem_append.mpr (Or.inl (mem_names_of_lookupN hlook))
          rw [hframeA pn.2 hne hmem1]
          show lookupN (st.root ++ [(tmp, Entry.dir entries)]) pn.2 = some (Entry.zip entries)
          rw [lookupN_append, hlook]
          rfl
        · rw [hp] at hlook
          obtain ⟨cs0, hd0, hsub0⟩ := lookupAt_cons_elim hlook
          have hne : d ≠ tmp := fun hc => htmpmem (hc ▸ mem_names_of_lookupN hd0)
          rw [lookupAt_eraseN_cons_ne hne]
          have hmem1 : d ∈ names st1.root := by
            show d ∈ names (st.root ++ [(tmp, Entry.dir entries)])
            rw [names_append]
            exact List.mem_append.mpr (Or.inl (mem_names_of_lookupN hd0))
          rw [lookupAt, hframeA d hne hmem1]
          show (match lookupN (st.root ++ [(tmp, Entry.dir entries)]) d with
            | some (Entry.dir cs) => lookupAt cs ps pn.2
            | _ => none) = some (Entry.zip entries)
          rw [lookupN_append, hd0]
          exact hsub0
      have hwfinal : wfL (removeFileAt (eraseN st2.root tmp) pn.1 pn.2) = true :=
        wfL_removeFileAt _ _ (wfL_eraseN _ hw2)
      have hpermfinal : List.Perm
          (datasL (removeFileAt (eraseN st2.root tmp) pn.1 pn.2)) (datasL st.root) := by
        have h4 : List.Perm (datasL (eraseN st2.root tmp))
            (datasL entries ++ datasL (removeFileAt (eraseN st2.root tmp) pn.1 pn.2)) := by
          have := datasL_perm_removeFileAt pn.1 hpreszip
          rwa [show datasE (Entry.zip entries) = datasL entries from rfl] at this
        have h1 : datasL st1.root = datasL st.root ++ datasL entries := by
          show datasL (st.root ++ [(tmp, Entry.dir entries)]) = _
          rw [datasL_append]
          rw [show datasL [(tmp, Entry.dir entries)] = datasL entries ++ [] from rfl]
          rw [List.append_nil]
        have h5 : List.Perm
            (datasL entries ++ datasL (removeFileAt (eraseN st2.root tmp) pn.1 pn.2))
            (datasL st.root ++ datasL entries) := by
          refine (h4.symm.trans hperm3).trans ?_
          rw [← h1]
          exact hperm2
        have h6 : List.Perm
            (datasL (removeFileAt (eraseN st2.root tmp) pn.1 pn.2) ++ datasL entries)
            (datasL st.root ++ datasL entries) :=
          (List.perm_append_comm).trans h5
        exact (List.perm_append_right_iff _).mp h6
      show wfL ((match moveLoop noFail (walkDir [tmp] entries) st1 with
        | Except.ok st3 => St.mk (removeFileAt (eraseN st3.root tmp) pn.1 pn.2) st3.log st3.mv
        | Except.error st3 =>
            St.mk (eraseN st3.root tmp) (Ev.errZip pn.1 pn.2 :: st3.log) st3.mv).root) = true
        ∧ List.Perm (datasL ((match moveLoop noFail (walkDir [tmp] entries) st1 with
        | Except.ok st3 => St.mk (removeFileAt (eraseN st3.root tmp) pn.1 pn.2) st3.log st3.mv
        | Except.error st3 =>
            St.mk (eraseN st3.root tmp) (Ev.errZip pn.1 pn.2 :: st3.log) st3.mv).root))
          (datasL st.root)
      rw [hres2]
      exact ⟨hwfinal, hpermfinal⟩

theorem walkDirs_no_dirs {l : Listing} (hfiles : ∀ q ∈ l, isFile q.2 = true) :
    ∀ (cur : Path), walkDirs cur l = [] := by
  induction l with
  | nil => intro cur; rw [walkDirs]
  | cons q r ih =>
    obtain ⟨n, e⟩ := q
    intro cur
    have hf : isFile e = true := hfiles (n, e) (List.mem_cons_self _ _)
    have hr : ∀ q ∈ r, isFile q.2 = true :=
      fun q hq => hfiles q (List.mem_cons_of_mem _ hq)
    cases e with
    | raw x => simpa [walkDirs] using ih hr cur
    | zip es => simpa [walkDirs] using ih hr cur
    | dir cs => cases hf

theorem buDirsAux_no_dirs {l : Listing} (hfiles : ∀ q ∈ l, isFile q.2 = true) :
    ∀ (cur : Path), buDirsAux cur l = [] := by
  induction l with
  | nil => intro cur; rw [buDirsAux]
  | cons q r ih =>
    obtain ⟨n, e⟩ := q
    intro cur
    have hf : isFile e = true := hfiles (n, e) (List.mem_cons_self _ _)
    have hr : ∀ q ∈ r, isFile q.2 = true :=
      fun q hq => hfiles q (List.mem_cons_of_mem _ hq)
    cases e with
    | raw x => simpa [buDirsAux] using ih hr cur
    | zip es => simpa [buDirsAux] using ih hr cur
    | dir cs => cases hf

theorem dirNamesPart_no_dirs {l : Listing} (hfiles : ∀ q ∈ l, isFile q.2 = true) :
    ∀ (cur : Path), dirNamesPart cur l = [] := by
  induction l with
  | nil => intro cur; rfl
  | cons q r ih =>
    obtain ⟨n, e⟩ := q
    intro cur
    have hf : isFile e = true := hfiles (n, e) (List.mem_cons_self _ _)
    have hr : ∀ q ∈ r, isFile q.2 = true :=
      fun q hq => hfiles q (List.mem_cons_of_mem _ hq)
    cases e with
    | raw x => simpa [dirNamesPart, List.filterMap_cons] using ih hr cur
    | zip es => simpa [dirNamesPart, List.filterMap_cons] using ih hr cur
    | dir cs => cases hf

/-- Processing a scanned archive list in sequence (`runPass`, the inner loop
of phase 1) under the failure-free oracle preserves well-formedness and the
multiset of raw contents. -/
theorem runPass_noFail :
    ∀ (zips : List (Path × Name)) (st : St), wfL st.root = true →
      wfL (runPass noFail st zips).root = true ∧
      List.Perm (datasL (runPass noFail st zips).root) (datasL st.root) := by
  intro zips
  induction zips with
  | nil =>
    intro st hw
    exact ⟨hw, List.Perm.refl _⟩
  | cons z zs ih =>
    intro st hw
    obtain ⟨hw1, hp1⟩ := processZip_noFail st z hw
    obtain ⟨hw2, hp2⟩ := ih (processZip noFail st z) hw1
    rw [show runPass noFail st (z :: zs) = runPass noFail (processZip noFail st z) zs from rfl]
    exact ⟨hw2, hp2.trans hp1⟩

/-- If phase 1's rescan loop terminates under the failure-free oracle, the
resulting tree is well-formed, the scan finds no ".zip" file anywhere in it,
and its multiset of raw contents is that of the initial tree. -/
theorem phase1_noFail :
    ∀ (fuel : Nat) (st st1 : St), phase1 noFail fuel st = some st1 →
      wfL st.root = true →
      wfL st1.root = true ∧ findZips st1.root = [] ∧
      List.Perm (datasL st1.root) (datasL st.root) := by
  intro fuel
  induction fuel with
  | zero =>
    intro st st1 h _
    cases h
  | succ fuel ih =>
    intro st st1 h hw
    simp only [phase1] at h
    rcases hfz : findZips st.root with _ | ⟨z, zs⟩
    · rw [hfz] at h
      rw [if_pos (show (List.isEmpty ([] : List (Path × Name))) = true from rfl)] at h
      cases h
      exact ⟨hw, hfz, List.Perm.refl _⟩
    · rw [hfz] at h
      rw [if_neg (by simp)] at h
      obtain ⟨hw1, hp1⟩ := runPass_noFail (z :: zs) st hw
      obtain ⟨hw2, hfz2, hp2⟩ := ih _ st1 h hw1
      exact ⟨hw2, hfz2, hp2.trans hp1⟩

/-- Under an oracle that never raises the uncaught error class, the shared
move loop always returns normally: the only abnormal exit is the uncaught
class. -/
theorem moveLoop_no_osErr (σ : Oracle) (hno : ∀ j, σ j ≠ some Exc.osErr) :
    ∀ (ms : List (Path × Name × Entry)) (st : St),
      ∃ st', moveLoop σ ms st = Except.ok st' := by
  intro ms
  induction ms with
  | nil =>
    intro st
    exact ⟨st, rfl⟩
  | cons head rest ih =>
    obtain ⟨p, n, e⟩ := head
    intro st
    rw [moveLoop]
    rcases hσ : σ st.mv with _ | exc
    · exact ih _
    · cases exc with
      | shErr => exact ih _
      | osErr => exact absurd hσ (hno st.mv)

/-- An empty ".zip" scan means no file in the walk has a name ending in
".zip". -/
theorem findZips_nil_ends {l : Listing} (h : findZips l = []) :
    ∀ i ∈ walkDir [] l, endsZip i.2.1 = false := by
  intro i hi
  rw [findZips, List.filterMap_eq_nil_iff] at h
  have hi2 := h i hi
  rcases hb : endsZip i.2.1 with _ | _
  · rfl
  · rw [if_pos hb] at hi2
    cases hi2

/-- A root-level file is among the files yielded by the walk. -/
theorem mem_walkDir_of_root {l : Listing} {n : Name} {g : Entry}
    (hq : (n, g) ∈ l) (hf : isFile g = true) :
    (([] : Path), n, g) ∈ walkDir [] l := by
  rw [walkDir, List.mem_append]
  left
  rw [mem_filesPart_iff]
  exact ⟨rfl, hq, hf⟩

theorem names_filter_sub {l : Listing} {p : Name × Entry → Bool} {n : Name}
    (h : n ∈ names (l.filter p)) : n ∈ names l := by
  rw [names, List.mem_map] at h
  obtain ⟨q, hq, hqn⟩ := h
  rw [names, List.mem_map]
  exact ⟨q, (List.mem_filter.mp hq).1, hqn⟩

theorem wfL_filter_files : ∀ {l : Listing}, wfL l = true →
    wfL (l.filter (fun q => isFile q.2)) = true := by
  intro l
  induction l with
  | nil =>
    intro h
    exact h
  | cons q r ih =>
    obtain ⟨n, e⟩ := q
    intro hw
    rw [wfL_cons_iff] at hw
    obtain ⟨hn, he, hr⟩ := hw
    rcases hf : isFile e with _ | _
    · rw [List.filter_cons_of_neg (p := fun q : Name × Entry => isFile q.2) (by simp [hf])]
      exact ih hr
    · rw [List.filter_cons_of_pos (p := fun q : Name × Entry => isFile q.2) hf]
      rw [wfL_cons_iff]
      exact ⟨fun hc => hn (names_filter_sub hc), he, ih hr⟩

/-- Dropping the file-free directories of a listing does not change its
multiset of raw contents. -/
theorem datasL_filter_files : ∀ {l : Listing},
    (∀ q ∈ l, isFile q.2 = true ∨ fileFreeE q.2 = true) →
    datasL (l.filter (fun q => isFile q.2)) = datasL l := by
  intro l
  induction l with
  | nil =>
    intro _
    rfl
  | cons q r ih =>
    obtain ⟨n, e⟩ := q
    intro h
    have hr := ih (fun q hq => h q (List.mem_cons_of_mem _ hq))
    rcases hf : isFile e with _ | _
    · have he : fileFreeE e = true := by
        rcases h (n, e) (List.mem_cons_self _ _) with h1 | h1
        · rw [hf] at h1
          cases h1
        · exact h1
      cases e with
      | raw x => cases hf
      | zip es => cases hf
      | dir cs =>
        rw [List.filter_cons_of_neg (p := fun q : Name × Entry => isFile q.2) (by simp [hf]), hr]
        rw [show datasL ((n, Entry.dir cs) :: r) = datasE (Entry.dir cs) ++ datasL r
          from by rw [datasL]]
        rw [show datasE (Entry.dir cs) = datasL cs from by rw [datasE]]
        rw [fileFreeE] at he
        rw [datasE_of_fileFree cs he]
        rfl
    · rw [List.filter_cons_of_pos (p := fun q : Name × Entry => isFile q.2) hf]
      rw [show datasL ((n, e) :: List.filter (fun q => isFile q.2) r)
          = datasE e ++ datasL (List.filter (fun q => isFile q.2) r) from by rw [datasL]]
      rw [show datasL ((n, e) :: r) = datasE e ++ datasL r from by rw [datasL]]
      rw [hr]

/-- Main property of a completed failure-free run on an existing directory:
the final tree is well-formed, contains only files, none of them named with
a ".zip" suffix, and carries exactly the multiset of raw contents of the
initial tree. -/
theorem run_noFail_main (fuel : Nat) (st st' : St) (hw : wfL st.root = true)
    (h : extract_and_flatten_folder noFail fuel true st = RunRes.done st') :
    wfL st'.root = true ∧
    (∀ q ∈ st'.root, isFile q.2 = true) ∧
    (∀ n ∈ names st'.root, endsZip n = false) ∧
    List.Perm (datasL st'.root) (datasL st.root) := by
  rw [extract_and_flatten_folder] at h
  rw [if_neg (by simp)] at h
  rcases h1 : phase1 noFail fuel st with _ | st1
  · rw [h1] at h
    cases h
  rw [h1] at h
  obtain ⟨hw1, hfz1, hperm1⟩ := phase1_noFail fuel st st1 h1 hw
  have hne : ∀ i ∈ walkDirs [] st1.root, i.1 ≠ [] := by
    intro i hi
    obtain ⟨d, ps, hpath, _, _⟩ := walkDirs_sound [] st1.root hw1 hi
    rw [hpath]
    simp
  have hkeys : (keysOf (walkDirs [] st1.root)).Nodup :=
    walkDirs_keys_nodup [] st1.root hw1
  have hpres : ∀ i ∈ walkDirs [] st1.root,
      lookupAt st1.root i.1 i.2.1 = some i.2.2 ∧ isFile i.2.2 = true := by
    intro i hi
    obtain ⟨d, ps, hpath, hlook, hf⟩ := walkDirs_sound [] st1.root hw1 hi
    rw [hpath]
    rw [List.nil_append]
    exact ⟨hlook, hf⟩
  have hcomp : ∀ q m g, q ≠ [] → lookupAt st1.root q m = some g →
      isFile g = true → (q, m, g) ∈ walkDirs [] st1.root := by
    intro q m g hq hl hf
    have := walkDirs_complete [] st1.root hq hl hf
    simpa using this
  obtain ⟨st2, hok2, hw2, hclear2, hperm2, _, _⟩ :=
    moveLoop_noFail_master (fun q => q ≠ []) (fun q hq => hq)
      (walkDirs [] st1.root) st1 hw1 hne hkeys hpres hcomp
  have hph2 : phase2 noFail st1 = Except.ok st2 := hok2
  have h' : (match phase2 noFail st1 with
    | Except.error st2 => RunRes.exn st2
    | Except.ok st2 => RunRes.done (phase3 st2)) = RunRes.done st' := h
  rw [hph2] at h'
  cases h'
  have hfof : ∀ q ∈ st2.root, isFile q.2 = true ∨ fileFreeE q.2 = true :=
    entries_file_or_fileFree hw2 (fun q m g hq hl hf => hclear2 q m g hq hl hf)
  have h3root : (phase3 st2).root = st2.root.filter (fun q => isFile q.2) := by
    rw [phase3]
    exact phase3_fold_main st2.root hw2 hfof
  rw [h3root]
  refine ⟨wfL_filter_files hw2, ?_, ?_, ?_⟩
  · intro q hq
    exact (List.mem_filter.mp hq).2
  · intro n hn
    rw [names, List.mem_map] at hn
    obtain ⟨q, hq, hqn⟩ := hn
    obtain ⟨hq2, hqf⟩ := List.mem_filter.mp hq
    have hlook2 : lookupN st2.root n = some q.2 := by
      refine lookupN_of_mem_nodup (wfL_nodup hw2) ?_
      rw [← hqn]
      exact hq2
    have := moveLoop_noFail_names (walkDirs [] st1.root) st1 st2 hne hok2
      n q.2 hlook2 hqf
    rcases this with ⟨g0, hg0, hfg0⟩ | ⟨i, hi, ns, hns⟩
    · have hmem : ((n : Name), g0) ∈ st1.root := mem_of_lookupN hg0
      have := findZips_nil_ends hfz1 (([] : Path), n, g0)
        (mem_walkDir_of_root hmem hfg0)
      exact this
    · have hiw : i ∈ walkDir [] st1.root := by
        rw [walkDir, List.mem_append]
        exact Or.inr hi
      have hez : endsZip i.2.1 = false := findZips_nil_ends hfz1 i hiw
      rw [hns]
      exact resolveName_not_endsZip ns i.2.1 hez
  · rw [datasL_filter_files hfof]
    exact hperm2.trans hperm1

/-- An empty scan on a flat listing of non-".zip" files. -/
theorem findZips_flat {l : Listing} (hfiles : ∀ q ∈ l, isFile q.2 = true)
    (hz : ∀ n ∈ names l, endsZip n = false) : findZips l = [] := by
  rw [findZips, List.filterMap_eq_nil_iff]
  intro i hi
  rw [walkDir, walkDirs_no_dirs hfiles, List.append_nil] at hi
  rw [mem_filesPart_iff] at hi
  have hn : i.2.1 ∈ names l := by
    rw [names, List.mem_map]
    exact ⟨(i.2.1, i.2.2), hi.2.1, rfl⟩
  rw [if_neg]
  rw [hz i.2.1 hn]
  simp

/-- On a root that already satisfies the final invariant — only files, none
named with a ".zip" suffix — the whole run is the identity: every phase
finds nothing to do. -/
theorem run_flat (σ : Oracle) (fuel : Nat) (st : St)
    (hfiles : ∀ q ∈ st.root, isFile q.2 = true)
    (hz : ∀ n ∈ names st.root, endsZip n = false) :
    extract_and_flatten_folder σ (fuel + 1) true st = RunRes.done st := by
  rw [extract_and_flatten_folder]
  rw [if_neg (by simp)]
  have h1 : phase1 σ (fuel + 1) st = some st := by
    simp only [phase1]
    rw [findZips_flat hfiles hz]
    rfl
  rw [h1]
  have h2 : phase2 σ st = Except.ok st := by
    rw [phase2, walkDirs_no_dirs hfiles, moveLoop]
  show (match phase2 σ st with
    | Except.error st2 => RunRes.exn st2
    | Except.ok st2 => RunRes.done (phase3 st2)) = RunRes.done st
  rw [h2]
  have h3 : phase3 st = st := by
    rw [phase3, buDirs, buDirsAux_no_dirs hfiles, dirNamesPart_no_dirs hfiles]
    rfl
  show RunRes.done (phase3 st) = RunRes.done st
  rw [h3]

/-- Processing a scanned entry that turns out to be a raw (non-archive) file:
`mkdtemp` has already created the scratch directory when `ZipFile` raises
`BadZipFile`, and the handler (lines 83–84) does not remove it. -/
theorem processZip_raw (σ : Oracle) (st : St) (pn : Path × Name) (y : Nat)
    (h : lookupAt st.root pn.1 pn.2 = some (Entry.raw y)) :
    processZip σ st pn =
      { root := st.root ++ [(freshTmp (names st.root), Entry.dir [])],
        log := Ev.warnBadZip pn.1 pn.2 :: st.log, mv := st.mv } := by
  rw [processZip, h]

/-- Unfolding of `processZip` on an entry that parses as an archive. -/
theorem processZip_zip (σ : Oracle) (st : St) (pn : Path × Name) (entries : Listing)
    (h : lookupAt st.root pn.1 pn.2 = some (Entry.zip entries)) :
    processZip σ st pn =
      match moveLoop σ (walkDir [freshTmp (names st.root)] entries)
          { st with root := st.root ++ [(freshTmp (names st.root), Entry.dir entries)] } with
      | Except.ok st2 =>
        { root := removeFileAt (eraseN st2.root (freshTmp (names st.root))) pn.1 pn.2,
          log := st2.log, mv := st2.mv }
      | Except.error st2 =>
        { root := eraseN st2.root (freshTmp (names st.root)),
          log := Ev.errZip pn.1 pn.2 :: st2.log, mv := st2.mv } := by
  rw [processZip, h]

theorem walkDirs_empty_dirs {extra : Listing}
    (hx : ∀ q ∈ extra, q.2 = Entry.dir []) :
    ∀ cur, walkDirs cur extra = [] := by
  induction extra with
  | nil =>
    intro cur
    rw [walkDirs]
  | cons q r ih =>
    obtain ⟨n, e⟩ := q
    intro cur
    have he : e = Entry.dir [] := hx (n, e) (List.mem_cons_self _ _)
    subst he
    have hr : ∀ q ∈ r, q.2 = Entry.dir [] := fun q hq => hx q (List.mem_cons_of_mem _ hq)
    simp [walkDirs, ih hr, filesPart]

theorem filesPart_dirs_nil {extra : Listing}
    (hx : ∀ q ∈ extra, q.2 = Entry.dir []) (cur : Path) :
    filesPart cur extra = [] := by
  rw [filesPart, List.filterMap_eq_nil_iff]
  intro q hq
  rw [hx q hq]
  rfl

/-- The scan of a root holding one ".zip"-named raw file next to empty
directories finds exactly that file, every time. -/
theorem findZips_corrupt {c : Name} {y : Nat} {extra : Listing}
    (hc : endsZip c = true) (hx : ∀ q ∈ extra, q.2 = Entry.dir []) :
    findZips ((c, Entry.raw y) :: extra) = [([], c)] := by
  have hwd : walkDirs [] ((c, Entry.raw y) :: extra) = [] := by
    simp [walkDirs, walkDirs_empty_dirs hx]
  have hfp : filesPart [] ((c, Entry.raw y) :: extra)
      = ([], c, Entry.raw y) :: filesPart [] extra := rfl
  rw [findZips, walkDir, hwd, List.append_nil, hfp, filesPart_dirs_nil hx]
  simp [List.filterMap_cons, hc]

/-- The nontermination of phase 1's rescan loop on a root whose only file is
a corrupt archive: the scan finds it every pass (lines 37–38 set the rescan
flag on *finding* a zip, not on successfully processing one), the bad-zip
handler leaves it in place, and a fresh scratch directory piles up each
pass; no amount of fuel reaches the zero-zip exit. -/
theorem phase1_corrupt {c : Name} {y : Nat} (hc : endsZip c = true) :
    ∀ (fuel : Nat) (st : St),
      (∃ extra, st.root = (c, Entry.raw y) :: extra ∧
        ∀ q ∈ extra, q.2 = Entry.dir []) →
      phase1 noFail fuel st = none := by
  intro fuel
  induction fuel with
  | zero =>
    intro st _
    rfl
  | succ fuel ih =>
    rintro st ⟨extra, hroot, hx⟩
    simp only [phase1]
    rw [hroot, findZips_corrupt hc hx]
    rw [if_neg (by simp)]
    refine ih _ ?_
    rw [show runPass noFail st [(([] : Path), c)] = processZip noFail st ([], c) from rfl]
    have hlook : lookupAt st.root [] c = some (Entry.raw y) := by
      rw [hroot, lookupAt, lookupN, if_pos rfl]
    rw [processZip_raw noFail st ([], c) y hlook]
    refine ⟨extra ++ [(freshTmp (names st.root), Entry.dir [])], ?_, ?_⟩
    · rw [hroot]
      rfl
    · intro q hq
      rcases List.mem_append.mp hq with h1 | h1
      · exact hx q h1
      · rw [List.mem_singleton] at h1
        rw [h1]

theorem wfL_single_raw (n : Name) (y : Nat) : wfL [(n, Entry.raw y)] = true := by
  rw [wfL_cons_iff]
  exact ⟨List.not_mem_nil _, by rw [wfE], by rw [wfL]⟩

/-- A failure oracle on which the very first `shutil.move` of the run raises
`shutil.Error` (the caught class) and every later one succeeds. -/
def sigmaSh : Oracle := fun i => if i = 0 then some Exc.shErr else none

/-- A failure oracle on which every `shutil.move` raises an `OSError` outside
`shutil.Error` (the class the phase-2 handler does not catch). -/
def sigmaOs : Oracle := fun _ => some Exc.osErr

/-- C1: refuted as stated — the outer rescan loop does NOT terminate on every
input tree.  On a root whose only file is `corrupt.zip` holding non-archive
bytes, every scan finds the file again (the rescan flag is set on finding a
zip, not on successfully processing one), the bad-zip handler leaves it in
place, and the run hangs for every fuel bound instead of completing. -/
theorem C1_rescan_never_terminates :
    ∀ fuel : Nat,
      extract_and_flatten_folder noFail fuel true
        ⟨[(['c','o','r','r','u','p','t','.','z','i','p'], Entry.raw 7)], [], 0⟩
      = RunRes.hang := by
  intro fuel
  rw [extract_and_flatten_folder, if_neg (by simp)]
  rw [phase1_corrupt (y := 7) (by decide) fuel _
    ⟨[], rfl, fun q hq => absurd hq (List.not_mem_nil _)⟩]

/-- C2 counterexample to the claim as stated: with the only move of the
extracted file `x` failing (with the caught class `shutil.Error`), the
archive `a.zip` is deleted anyway — the per-file handler swallows the
failure and `os.remove` still runs.  The final root is empty although step 3
did not fully succeed. -/
theorem C2_counterexample :
    sigmaSh 0 = some Exc.shErr ∧
    processZip sigmaSh
        ⟨[(['a','.','z','i','p'], Entry.zip [(['x'], Entry.raw 7)])], [], 0⟩
        ([], ['a','.','z','i','p'])
      = { root := [], log := [Ev.errMove ['x']], mv := 1 } := by
  refine ⟨rfl, ?_⟩
  rw [processZip_zip sigmaSh ⟨[(['a','.','z','i','p'], Entry.zip [(['x'], Entry.raw 7)])], [], 0⟩
    ([], ['a','.','z','i','p']) [(['x'], Entry.raw 7)] rfl]
  have htmp : freshTmp (names ((⟨[(['a','.','z','i','p'],
      Entry.zip [(['x'], Entry.raw 7)])], [], 0⟩ : St).root))
      = ['t','m','p','_','1'] :=
    freshTmp_eval (by decide)
  rw [htmp]
  have hwd : walkDir [['t','m','p','_','1']] [((['x'] : Name), Entry.raw 7)]
      = [([['t','m','p','_','1']], ['x'], Entry.raw 7)] := by
    rw [walkDir]
    rw [show walkDirs [['t','m','p','_','1']] [((['x'] : Name), Entry.raw 7)] = []
      from by simp [walkDirs]]
    rfl
  rw [hwd]
  rfl

/-- C2 (amended): on a well-formed tree, an entry that parses as a valid
archive is deleted whenever no move raises outside `shutil.Error` — even if
some moves of extracted files failed with the caught class.  (The original
iff with "all of steps 1–4 fully succeeded" is refuted by
the counterexample.) -/
theorem C2_archive_deletion (σ : Oracle) (st : St) (pn : Path × Name)
    (entries : Listing) (hw : wfL st.root = true)
    (hzip : lookupAt st.root pn.1 pn.2 = some (Entry.zip entries))
    (hno : ∀ j, σ j ≠ some Exc.osErr) :
    lookupAt (processZip σ st pn).root pn.1 pn.2 = none :=
  processZip_deletes σ st pn entries hw hzip hno

theorem C2_archive_deletion_witness :
    wfL ((⟨[(['a','.','z','i','p'], Entry.zip [(['x'], Entry.raw 7)])], [], 0⟩ : St).root)
        = true ∧
    lookupAt ((⟨[(['a','.','z','i','p'], Entry.zip [(['x'], Entry.raw 7)])], [], 0⟩
        : St).root) [] ['a','.','z','i','p']
      = some (Entry.zip [(['x'], Entry.raw 7)]) ∧
    (∀ j, sigmaSh j ≠ some Exc.osErr) ∧
    lookupAt (processZip sigmaSh
        ⟨[(['a','.','z','i','p'], Entry.zip [(['x'], Entry.raw 7)])], [], 0⟩
        ([], ['a','.','z','i','p'])).root [] ['a','.','z','i','p'] = none := by
  have hw : wfL ([(['a','.','z','i','p'], Entry.zip [(['x'], Entry.raw 7)])] : Listing)
      = true := by
    rw [wfL_cons_iff]
    refine ⟨List.not_mem_nil _, ?_, by rw [wfL]⟩
    rw [wfE]
    exact wfL_single_raw _ _
  have hz : lookupAt ([(['a','.','z','i','p'], Entry.zip [(['x'], Entry.raw 7)])] : Listing)
      [] ['a','.','z','i','p'] = some (Entry.zip [(['x'], Entry.raw 7)]) := rfl
  have hno : ∀ j, sigmaSh j ≠ some Exc.osErr := by
    intro j
    by_cases hj : j = 0
    · intro hc
      rw [hj] at hc
      simp [sigmaSh] at hc
    · simp [sigmaSh, hj]
  exact ⟨hw, hz, hno,
    C2_archive_deletion sigmaSh _ _ [(['x'], Entry.raw 7)] hw hz hno⟩

/-- C3 counterexample to the claim as stated: the run DOES delete a
non-archive file.  The file `y` (content 9) extracted from `b.zip` fails to
move (caught class); the scratch cleanup then deletes it together with the
scratch directory and the archive is removed too: the content multiset goes
from [9] to []. -/
theorem C3_counterexample :
    datasL ([(['b','.','z','i','p'], Entry.zip [(['y'], Entry.raw 9)])] : Listing) = [9] ∧
    processZip sigmaSh
        ⟨[(['b','.','z','i','p'], Entry.zip [(['y'], Entry.raw 9)])], [], 0⟩
        ([], ['b','.','z','i','p'])
      = { root := [], log := [Ev.errMove ['y']], mv := 1 } := by
  constructor
  · simp [datasL, datasE]
  · rw [processZip_zip sigmaSh ⟨[(['b','.','z','i','p'], Entry.zip [(['y'], Entry.raw 9)])], [], 0⟩
      ([], ['b','.','z','i','p']) [(['y'], Entry.raw 9)] rfl]
    have htmp : freshTmp (names ((⟨[(['b','.','z','i','p'],
        Entry.zip [(['y'], Entry.raw 9)])], [], 0⟩ : St).root))
        = ['t','m','p','_','1'] :=
      freshTmp_eval (by decide)
    rw [htmp]
    have hwd : walkDir [['t','m','p','_','1']] [((['y'] : Name), Entry.raw 9)]
        = [([['t','m','p','_','1']], ['y'], Entry.raw 9)] := by
      rw [walkDir]
      rw [show walkDirs [['t','m','p','_','1']] [((['y'] : Name), Entry.raw 9)] = []
        from by simp [walkDirs]]
      rfl
    rw [hwd]
    rfl

/-- C3 (amended): in a run in which no move fails, no file content is lost:
a completed run on a well-formed existing directory preserves the multiset
of raw file contents of the tree, those inside archives included.  (The
unconditional "never deletes a non-archive file" is refuted by the
counterexample.) -/
theorem C3_contents_preserved (fuel : Nat) (st st' : St) (hw : wfL st.root = true)
    (h : extract_and_flatten_folder noFail fuel true st = RunRes.done st') :
    List.Perm (datasL st'.root) (datasL st.root) :=
  (run_noFail_main fuel st st' hw h).2.2.2

theorem C3_contents_preserved_witness :
    wfL ((⟨[((['a'] : Name), Entry.raw 3)], [], 0⟩ : St).root) = true ∧
    extract_and_flatten_folder noFail 1 true ⟨[((['a'] : Name), Entry.raw 3)], [], 0⟩
      = RunRes.done ⟨[((['a'] : Name), Entry.raw 3)], [], 0⟩ ∧
    List.Perm (datasL ((⟨[((['a'] : Name), Entry.raw 3)], [], 0⟩ : St).root))
      (datasL ((⟨[((['a'] : Name), Entry.raw 3)], [], 0⟩ : St).root)) := by
  have hw : wfL ([((['a'] : Name), Entry.raw 3)] : Listing) = true := wfL_single_raw _ _
  have hr : extract_and_flatten_folder noFail 1 true ⟨[((['a'] : Name), Entry.raw 3)], [], 0⟩
      = RunRes.done ⟨[((['a'] : Name), Entry.raw 3)], [], 0⟩ :=
    run_flat noFail 0 _
      (fun q hq => by
        rw [List.mem_singleton] at hq
        rw [hq]
        rfl)
      (fun m hm => by
        rw [show names ([((['a'] : Name), Entry.raw 3)] : Listing) = [['a']] from rfl,
          List.mem_singleton] at hm
        rw [hm]
        decide)
  exact ⟨hw, hr, C3_contents_preserved 1 _ _ hw hr⟩

/-- C4: after a run with no move failures completes on an existing directory,
the root holds only regular files — no subdirectories, no ".zip"-named
files — and no two root entries share a name. -/
theorem C4_final_invariant (fuel : Nat) (st st' : St) (hw : wfL st.root = true)
    (h : extract_and_flatten_folder noFail fuel true st = RunRes.done st') :
    (∀ q ∈ st'.root, isFile q.2 = true) ∧
    (∀ n ∈ names st'.root, endsZip n = false) ∧
    (names st'.root).Nodup := by
  obtain ⟨hw', hfiles, hz, _⟩ := run_noFail_main fuel st st' hw h
  exact ⟨hfiles, hz, wfL_nodup hw'⟩

theorem C4_final_invariant_witness :
    wfL ((⟨[], [], 0⟩ : St).root) = true ∧
    extract_and_flatten_folder noFail 1 true ⟨[], [], 0⟩ = RunRes.done ⟨[], [], 0⟩ ∧
    ((∀ q ∈ (⟨[], [], 0⟩ : St).root, isFile q.2 = true) ∧
      (∀ n ∈ names ((⟨[], [], 0⟩ : St).root), endsZip n = false) ∧
      (names ((⟨[], [], 0⟩ : St).root)).Nodup) := by
  have hw : wfL (([] : Listing)) = true := by rw [wfL]
  have hr : extract_and_flatten_folder noFail 1 true ⟨[], [], 0⟩
      = RunRes.done ⟨[], [], 0⟩ :=
    run_flat noFail 0 _ (fun q hq => absurd hq (List.not_mem_nil _))
      (fun n hn => absurd hn (List.not_mem_nil _))
  exact ⟨hw, hr, C4_final_invariant 1 _ _ hw hr⟩

/-- C5: the shared collision policy (the single `resolveName` used by both
the phase-1 and phase-2 move loops): a taken candidate name is split into
base and extension and the destination is `base_k.ext` for the least
positive `k` whose candidate is unused; the chosen name is never an
existing one, so the pre-existing file is not overwritten. -/
theorem C5_collision_policy (ns : List Name) (n : Name) (h : n ∈ ns) :
    resolveName ns n
        = suffixed (splitext n).1 (splitext n).2
            (probe ns (splitext n).1 (splitext n).2 1) ∧
    1 ≤ probe ns (splitext n).1 (splitext n).2 1 ∧
    suffixed (splitext n).1 (splitext n).2
        (probe ns (splitext n).1 (splitext n).2 1) ∉ ns ∧
    (∀ j, 1 ≤ j → j < probe ns (splitext n).1 (splitext n).2 1 →
      suffixed (splitext n).1 (splitext n).2 j ∈ ns) := by
  refine ⟨?_, probe_le _ _ _ _, probe_not_mem _ _ _ _, probe_min _ _ _ _⟩
  rw [resolveName, if_pos h]

theorem C5_collision_policy_witness :
    (['a','.','t'] : Name) ∈ [(['a','.','t'] : Name), ['a','_','1','.','t']] ∧
    (resolveName [(['a','.','t'] : Name), ['a','_','1','.','t']] ['a','.','t']
        = suffixed (splitext ['a','.','t']).1 (splitext ['a','.','t']).2
            (probe [(['a','.','t'] : Name), ['a','_','1','.','t']]
              (splitext ['a','.','t']).1 (splitext ['a','.','t']).2 1) ∧
      1 ≤ probe [(['a','.','t'] : Name), ['a','_','1','.','t']]
          (splitext ['a','.','t']).1 (splitext ['a','.','t']).2 1 ∧
      suffixed (splitext ['a','.','t']).1 (splitext ['a','.','t']).2
          (probe [(['a','.','t'] : Name), ['a','_','1','.','t']]
            (splitext ['a','.','t']).1 (splitext ['a','.','t']).2 1)
        ∉ [(['a','.','t'] : Name), ['a','_','1','.','t']] ∧
      (∀ j, 1 ≤ j → j < probe [(['a','.','t'] : Name), ['a','_','1','.','t']]
          (splitext ['a','.','t']).1 (splitext ['a','.','t']).2 1 →
        suffixed (splitext ['a','.','t']).1 (splitext ['a','.','t']).2 j
          ∈ [(['a','.','t'] : Name), ['a','_','1','.','t']])) :=
  ⟨by decide, C5_collision_policy _ _ (by decide)⟩

/-- C6: a completed run with no move failures is idempotent — running the
operation again on the resulting root returns immediately with the same
root-level names and contents: every phase finds nothing to do. -/
theorem C6_second_run_noop (fuel fuel2 : Nat) (st st' : St) (hw : wfL st.root = true)
    (h : extract_and_flatten_folder noFail fuel true st = RunRes.done st') :
    extract_and_flatten_folder noFail (fuel2 + 1) true st' = RunRes.done st' := by
  obtain ⟨_, hfiles, hz, _⟩ := run_noFail_main fuel st st' hw h
  exact run_flat noFail fuel2 st' hfiles hz

theorem C6_second_run_noop_witness :
    wfL ((⟨[((['b'] : Name), Entry.raw 2)], [], 0⟩ : St).root) = true ∧
    extract_and_flatten_folder noFail 1 true ⟨[((['b'] : Name), Entry.raw 2)], [], 0⟩
      = RunRes.done ⟨[((['b'] : Name), Entry.raw 2)], [], 0⟩ ∧
    extract_and_flatten_folder noFail (0 + 1) true ⟨[((['b'] : Name), Entry.raw 2)], [], 0⟩
      = RunRes.done ⟨[((['b'] : Name), Entry.raw 2)], [], 0⟩ := by
  have hw : wfL ([((['b'] : Name), Entry.raw 2)] : Listing) = true := wfL_single_raw _ _
  have hr : extract_and_flatten_folder noFail 1 true ⟨[((['b'] : Name), Entry.raw 2)], [], 0⟩
      = RunRes.done ⟨[((['b'] : Name), Entry.raw 2)], [], 0⟩ :=
    run_flat noFail 0 _
      (fun q hq => by
        rw [List.mem_singleton] at hq
        rw [hq]
        rfl)
      (fun m hm => by
        rw [show names ([((['b'] : Name), Entry.raw 2)] : Listing) = [['b']] from rfl,
          List.mem_singleton] at hm
        rw [hm]
        decide)
  exact ⟨hw, hr, C6_second_run_noop 1 0 _ _ hw hr⟩

/-- C7: refuted as stated — the scratch directory is NOT removed on every
failure path.  `mkdtemp` runs before `ZipFile` opens the archive, and the
`BadZipFile` handler neither extracts nor cleans up: after processing an
entry that is not a valid archive, the freshly created scratch directory is
still present (empty) at the root. -/
theorem C7_scratch_leaked (σ : Oracle) (st : St) (pn : Path × Name) (y : Nat)
    (h : lookupAt st.root pn.1 pn.2 = some (Entry.raw y)) :
    lookupN (processZip σ st pn).root (freshTmp (names st.root))
      = some (Entry.dir []) := by
  rw [processZip_raw σ st pn y h]
  show lookupN (st.root ++ [(freshTmp (names st.root), Entry.dir [])])
    (freshTmp (names st.root)) = some (Entry.dir [])
  exact lookupN_append_single_self (freshTmp_not_mem _)

theorem C7_scratch_leaked_witness :
    lookupAt ((⟨[(['c','.','z','i','p'], Entry.raw 7)], [], 0⟩ : St).root) []
        ['c','.','z','i','p'] = some (Entry.raw 7) ∧
    lookupN (processZip noFail ⟨[(['c','.','z','i','p'], Entry.raw 7)], [], 0⟩
        ([], ['c','.','z','i','p'])).root
      (freshTmp (names ((⟨[(['c','.','z','i','p'], Entry.raw 7)], [], 0⟩ : St).root)))
      = some (Entry.dir []) := by
  have h : lookupAt ((⟨[(['c','.','z','i','p'], Entry.raw 7)], [], 0⟩ : St).root) []
      ['c','.','z','i','p'] = some (Entry.raw 7) := rfl
  exact ⟨h, C7_scratch_leaked noFail _ _ 7 h⟩

/-- C8 counterexample to the claim as stated: a single per-entry I/O failure
CAN abort the whole run.  Phase 2's handler catches only `shutil.Error`; a
move of `sub/f` failing with another `OSError` propagates out of
`extract_and_flatten_folder`, aborting the run with the file still in its
subdirectory. -/
theorem C8_counterexample :
    extract_and_flatten_folder sigmaOs 1 true
        ⟨[(['d'], Entry.dir [(['f'], Entry.raw 1)])], [], 0⟩
      = RunRes.exn ⟨[(['d'], Entry.dir [(['f'], Entry.raw 1)])], [], 1⟩ := by
  rw [extract_and_flatten_folder, if_neg (by simp)]
  have hfz : findZips ([(['d'], Entry.dir [(['f'], Entry.raw 1)])] : Listing) = [] := by
    rw [findZips, walkDir]
    rw [show walkDirs [] ([((['d'] : Name), Entry.dir [(['f'], Entry.raw 1)])] : Listing)
        = [([['d']], ['f'], Entry.raw 1)] from by simp [walkDirs, filesPart, isFile]]
    rfl
  have h1 : phase1 sigmaOs 1 ⟨[(['d'], Entry.dir [(['f'], Entry.raw 1)])], [], 0⟩
      = some ⟨[(['d'], Entry.dir [(['f'], Entry.raw 1)])], [], 0⟩ := by
    show (if (findZips ([(['d'], Entry.dir [(['f'], Entry.raw 1)])] : Listing)).isEmpty = true
        then some (⟨[(['d'], Entry.dir [(['f'], Entry.raw 1)])], [], 0⟩ : St)
        else phase1 sigmaOs 0 (runPass sigmaOs ⟨[(['d'], Entry.dir [(['f'], Entry.raw 1)])], [], 0⟩
          (findZips ([(['d'], Entry.dir [(['f'], Entry.raw 1)])] : Listing))))
      = some (⟨[(['d'], Entry.dir [(['f'], Entry.raw 1)])], [], 0⟩ : St)
    rw [hfz]
    rfl
  rw [h1]
  have h2 : phase2 sigmaOs ⟨[(['d'], Entry.dir [(['f'], Entry.raw 1)])], [], 0⟩
      = Except.error ⟨[(['d'], Entry.dir [(['f'], Entry.raw 1)])], [], 1⟩ := by
    rw [phase2]
    rw [show walkDirs [] ((⟨[(['d'], Entry.dir [(['f'], Entry.raw 1)])], [], 0⟩ : St).root)
        = [([['d']], ['f'], Entry.raw 1)] from by simp [walkDirs, filesPart, isFile]]
    rfl
  show (match phase2 sigmaOs ⟨[(['d'], Entry.dir [(['f'], Entry.raw 1)])], [], 0⟩ with
    | Except.error st2 => RunRes.exn st2
    | Except.ok st2 => RunRes.done (phase3 st2))
    = RunRes.exn ⟨[(['d'], Entry.dir [(['f'], Entry.raw 1)])], [], 1⟩
  rw [h2]

/-- C8 (amended): as long as every move failure is of the caught class
`shutil.Error` (or every move succeeds), no per-entry failure aborts the
run: the result is never an uncaught exception, whatever the tree, the fuel
and the root check.  (The original "no per-entry I/O failure ever aborts the
run" is refuted by the counterexample.) -/
theorem C8_no_abort (σ : Oracle) (fuel : Nat) (isdir : Bool) (st : St)
    (hno : ∀ j, σ j ≠ some Exc.osErr) :
    ∀ s, extract_and_flatten_folder σ fuel isdir st ≠ RunRes.exn s := by
  intro s
  rw [extract_and_flatten_folder]
  rcases isdir with _ | _
  · intro hc
    exact RunRes.noConfusion hc
  · rw [if_neg (by simp)]
    rcases h1 : phase1 σ fuel st with _ | st1
    · intro hc
      exact RunRes.noConfusion hc
    · obtain ⟨st2, hok⟩ := moveLoop_no_osErr σ hno (walkDirs [] st1.root) st1
      have hph2 : phase2 σ st1 = Except.ok st2 := hok
      show (match phase2 σ st1 with
        | Except.error st2 => RunRes.exn st2
        | Except.ok st2 => RunRes.done (phase3 st2)) ≠ RunRes.exn s
      rw [hph2]
      intro hc
      exact RunRes.noConfusion hc

theorem C8_no_abort_witness :
    (∀ j, noFail j ≠ some Exc.osErr) ∧
    ∀ s, extract_and_flatten_folder noFail 1 true ⟨[], [], 0⟩ ≠ RunRes.exn s :=
  ⟨fun j h => Option.noConfusion h,
    C8_no_abort noFail 1 true ⟨[], [], 0⟩ (fun j h => Option.noConfusion h)⟩

/-- C9: when the root check fails (the path does not exist or is not a
directory), the run reports the error and returns a state with the tree and
the move counter completely untouched — no mutation at all. -/
theorem C9_root_validation (σ : Oracle) (fuel : Nat) (st : St) :
    extract_and_flatten_folder σ fuel false st
      = RunRes.done { root := st.root, log := Ev.errNotDir :: st.log, mv := st.mv } := rfl

/-- C10: a file is treated as an archive exactly when its name ends in the
lowercase ".zip": the scan's hits are precisely the walked files with that
suffix; ".ZIP" is not such a suffix, and a root holding only `x.ZIP` (raw
bytes) completes with the file left in place, unextracted. -/
theorem C10_zip_suffix :
    (∀ (l : Listing) (p : Path) (n : Name),
      (p, n) ∈ findZips l ↔ ∃ g, (p, n, g) ∈ walkDir [] l ∧ endsZip n = true) ∧
    endsZip ['x','.','z','i','p'] = true ∧
    endsZip ['x','.','Z','I','P'] = false ∧
    extract_and_flatten_folder noFail 1 true
        ⟨[(['x','.','Z','I','P'], Entry.raw 5)], [], 0⟩
      = RunRes.done ⟨[(['x','.','Z','I','P'], Entry.raw 5)], [], 0⟩ := by
  refine ⟨?_, by decide, by decide, ?_⟩
  · intro l p n
    rw [findZips, List.mem_filterMap]
    constructor
    · rintro ⟨a, ha, hfa⟩
      rcases hb : endsZip a.2.1 with _ | _
      · rw [if_neg (by simp [hb])] at hfa
        cases hfa
      · rw [if_pos hb] at hfa
        have h3 := Option.some.inj hfa
        have h1 : a.1 = p := congrArg Prod.fst h3
        have h2 : a.2.1 = n := congrArg Prod.snd h3
        refine ⟨a.2.2, ?_, h2 ▸ hb⟩
        have ha2 : a = (p, n, a.2.2) := by
          rw [← h1, ← h2]
        rw [← ha2]
        exact ha
    · rintro ⟨g, hg, he⟩
      exact ⟨(p, n, g), hg, by rw [if_pos he]⟩
  · exact run_flat noFail 0 _
      (fun q hq => by
        rw [List.mem_singleton] at hq
        rw [hq]
        rfl)
      (fun m hm => by
        rw [show names ([(['x','.','Z','I','P'], Entry.raw 5)] : Listing)
            = [['x','.','Z','I','P']] from rfl, List.mem_singleton] at hm
        rw [hm]
        decide)

end App
